import Mathlib

/-!
# Verification of `cwltool/checker.py`

A shallow embedding of the static workflow checker in `src/cwltool/checker.py`,
together with proofs and refutations of the specification claims about it.

Modelling conventions:

* Python values handled by the checker (type expressions and parameter
  dictionaries) are embedded as the inductive `CV`: strings, lists, and
  mappings.  A mapping is represented by the fields the checker actually
  reads: `"type"`, `"items"`, `"fields"`, `"secondaryFiles"`,
  `"not_connected"`.  Keys that are absent in a given Python dict are `none`
  (resp. `[]` / `false` for list- and truthiness-valued keys).  Keys the
  checker never reads (`name`, `symbols`, `inputBinding`, ...) are omitted.
* A mapping present with `"type": "array"` is assumed to carry `"items"`
  (Python would raise `KeyError` otherwise); the model reads the field with
  an inert default `vstr ""`.
* Python `==` between a checker value and a string literal is `CV.isStr`;
  it is `true` only on equal strings (a dict or list never equals a string).
* `schema_salad.sourceline.SourceLine(..).makeError(msg)` decorates `msg`
  with source positions of the loaded document; source positions are out of
  scope, so `makeError` is modelled as the identity on `msg`, and
  `json_dumps` of a type is abstracted by a simple rendering.  No claim
  depends on the decorated text.
* Recursive functions of the source are embedded with an explicit fuel
  argument so that every definition is structurally recursive (hence
  kernel-computable); the public entry points supply fuel that provably
  suffices, and fuel-independence is proved where theorems need it.
-/

/-- One entry of a `secondaryFiles` list: a Python dict
`{"pattern": ..., "required": ...}` (the `required` key may be absent).
Two entries are compared with Python `==`, i.e. structural equality. -/
structure SecFile where
  pattern : String
  required : Option Bool
deriving DecidableEq, Repr

/-- The universe of values the checker manipulates: JSON-ish trees made of
strings, lists, and mappings.  `vmap ty items fields sfs nc` is a Python
dict whose `"type"` key holds `ty`, whose optional `"items"` / `"fields"`
keys hold `items` / `fields`, whose `"secondaryFiles"` key holds `sfs`
(absent key = `[]`, the default used by the source), and whose
`"not_connected"` key is truthy iff `nc`.  Both type expressions and whole
parameter dicts are `vmap`s, exactly as in the Python source where
`can_assign_src_to_sink` receives parameter dicts and recurses into their
`"type"` values. -/
inductive CV where
  | vstr (s : String)
  | vlist (xs : List CV)
  | vmap (ty : CV) (items : Option CV) (fields : Option (List (String × CV)))
         (sfs : List SecFile) (nc : Bool)
deriving Repr

mutual
/-- Structural size of a `CV`, used as the fuel bound for the assignability
oracle.  The constant `7` on mappings gives slack over the `vstr "null"`
defaults substituted for absent record fields. -/
def CV.msize : CV → Nat
  | .vstr _ => 1
  | .vlist xs => 1 + msizeList xs
  | .vmap ty items fields _ _ => 7 + ty.msize + msizeOpt items + msizeFieldsOpt fields
def msizeList : List CV → Nat
  | [] => 0
  | x :: xs => x.msize + msizeList xs
def msizeOpt : Option CV → Nat
  | none => 0
  | some x => x.msize
def msizeFields : List (String × CV) → Nat
  | [] => 0
  | f :: fs => 1 + f.2.msize + msizeFields fs
def msizeFieldsOpt : Option (List (String × CV)) → Nat
  | none => 0
  | some fs => msizeFields fs
end

/-- Characters of `l` strictly after the first occurrence of `c`, or `none`
if `c` does not occur. -/
def afterFirstChar? (c : Char) : List Char → Option (List Char)
  | [] => none
  | x :: xs => if x == c then some xs else afterFirstChar? c xs

/-- Characters of `l` strictly before the first occurrence of `c` (all of
`l` if `c` does not occur). -/
def beforeFirstChar (c : Char) : List Char → List Char
  | [] => []
  | x :: xs => if x == c then [] else x :: beforeFirstChar c xs

/-- Characters of `l` strictly after the last occurrence of `c` (all of `l`
if `c` does not occur). -/
def afterLastChar (c : Char) (l : List Char) : List Char :=
  l.foldl (fun acc x => if x == c then [] else acc ++ [x]) []

/-- Characters of `l` strictly before the last occurrence of `c` (empty if
`c` does not occur), i.e. Python `c.join(s.split(c)[:-1])`. -/
def beforeLastChar (c : Char) (l : List Char) : List Char :=
  match afterFirstChar? c l.reverse with
  | none => []
  | some rest => rest.reverse

/-- Modelled from the spec: `cwltool.process.shortname` (the module is not
part of the sources under verification).  Per the spec, record field names
and diagnostic names are compared under "a short-name normalization (the
final path segment)": the final `/`-segment of the URI fragment (after the
first `#`), or of the whole id when there is no fragment. -/
def shortname (s : String) : String :=
  let cs := s.toList
  let frag := (afterFirstChar? '#' cs).getD cs
  String.mk (afterLastChar '/' frag)

/-- Python `pat in s` on strings: substring containment. -/
def strHasSubstr (pat s : String) : Bool :=
  go s.toList
where
  /-- Does `pat` occur in the char list? -/
  go : List Char → Bool
    | [] => pat.toList.isEmpty
    | x :: xs => startsWith pat.toList (x :: xs) || go xs
  /-- Is the first list a prefix of the second? -/
  startsWith : List Char → List Char → Bool
    | [], _ => true
    | _ :: _, [] => false
    | p :: ps, x :: xs => p == x && startsWith ps xs

/-- Python `v == lit` for a checker value and a string literal `lit`. -/
def CV.isStr : CV → String → Bool
  | .vstr a, s => a == s
  | _, _ => false

/-- `v == "Any"`. -/
def isAny (t : CV) : Bool := t.isStr "Any"

/-- `v == "null"`. -/
def isNullStr (t : CV) : Bool := t.isStr "null"

/-- Python `==` between two checker values as used in the final fallback of
`can_assign_src_to_sink`: at that point neither side is a list and they are
not both mappings, so only string/string comparisons can succeed. -/
def strEqCV : CV → CV → Bool
  | .vstr a, .vstr b => a == b
  | _, _ => false

/-- The dict built by `_rec_fields` in `_compare_records`, read back through
one key: `out[shortname(field["name"])] = field["type"]` with later entries
overwriting earlier ones, so a lookup returns the *last* field whose
short name equals `key`. -/
def recLookup (fs : List (String × CV)) (key : String) : Option CV :=
  fs.foldl (fun acc f => if shortname f.1 == key then some f.2 else acc) none

/-- `can_assign_src_to_sink(src, sink, strict)` (checker.py lines 63-152),
with explicit fuel; `_compare_records` is inlined at the `record` branch.
Faithfulness notes, in source order:
* `src == "Any" or sink == "Any"` accepts first;
* both mappings: `not_connected`-and-strict rejects; `array`/`array`
  recurses on `items`; `record`/`record` is `_compare_records` — iterating
  once per sink field instead of once per distinct key of the field dict
  yields the same conjunction, and the dead `sinkfields.get(key) is not
  None` conjunct (keys are drawn from `sinkfields`) is dropped;
  `File`/`File` demands, in strict mode only, every sink `secondaryFiles`
  entry to occur in the source's; otherwise recurse on the `"type"` values;
* a list source: in strict mode *all* branches must be assignable, in
  non-strict mode *some* non-`"null"` branch — in both loops the source
  calls `can_assign_src_to_sink(this_src, sink)` with the *default*
  (non-strict) mode;
* a list sink: some branch must accept `src`, again in default mode;
* fallback: Python `==`. -/
def can_assignF : Nat → CV → CV → Bool → Bool
  | 0, _, _, _ => false
  | fuel+1, src, sink, strict =>
    if isAny src || isAny sink then true
    else match src, sink with
    | .vmap sty sitems sfields ssfs _snc, .vmap tty titems tfields tsfs tnc =>
      if tnc && strict then false
      else if sty.isStr "array" && tty.isStr "array" then
        can_assignF fuel (sitems.getD (.vstr "")) (titems.getD (.vstr "")) strict
      else if sty.isStr "record" && tty.isStr "record" then
        let sf := sfields.getD []
        let tf := tfields.getD []
        (tf.map (fun f => shortname f.1)).all (fun key =>
          can_assignF fuel ((recLookup sf key).getD (.vstr "null"))
            ((recLookup tf key).getD (.vstr "null")) strict)
      else if sty.isStr "File" && tty.isStr "File" then
        if strict then tsfs.all (fun sf => ssfs.contains sf) else true
      else can_assignF fuel sty tty strict
    | .vlist branches, snk =>
      if strict then branches.all (fun b => can_assignF fuel b snk false)
      else branches.any (fun b => !(isNullStr b) && can_assignF fuel b snk false)
    | s, .vlist tbranches =>
      tbranches.any (fun tb => can_assignF fuel s tb false)
    | s, snk => strEqCV s snk

/-- `can_assign_src_to_sink` with its canonical (provably sufficient) fuel. -/
def can_assign_src_to_sink (src sink : CV) (strict : Bool) : Bool :=
  can_assignF (src.msize + sink.msize) src sink strict

theorem msize_pos (t : CV) : 1 ≤ t.msize := by
  cases t <;> (simp only [CV.msize]; omega)

theorem mem_msizeList {x : CV} {xs : List CV} (h : x ∈ xs) : x.msize ≤ msizeList xs := by
  induction xs with
  | nil => cases h
  | cons y ys ih =>
    rcases List.mem_cons.mp h with rfl | h'
    · simp [msizeList]
    · have := ih h'
      simp [msizeList]
      omega

theorem mem_msizeFields {f : String × CV} {fs : List (String × CV)} (h : f ∈ fs) :
    f.2.msize + 1 ≤ msizeFields fs := by
  induction fs with
  | nil => cases h
  | cons g gs ih =>
    rcases List.mem_cons.mp h with rfl | h'
    · simp [msizeFields]
      omega
    · have := ih h'
      simp [msizeFields]
      omega

theorem recLookup_acc_mem {v : CV} :
    ∀ (fs : List (String × CV)) (acc : Option CV) (key : String),
    fs.foldl (fun acc f => if shortname f.1 == key then some f.2 else acc) acc = some v →
    acc = some v ∨ ∃ f ∈ fs, f.2 = v := by
  intro fs
  induction fs with
  | nil => intro acc key h; exact Or.inl h
  | cons g gs ih =>
    intro acc key h
    simp only [List.foldl_cons] at h
    rcases ih _ key h with h' | ⟨f, hf, rfl⟩
    · by_cases hg : (shortname g.1 == key) = true
      · simp [hg] at h'
        exact Or.inr ⟨g, List.mem_cons_self .., h'⟩
      · simp [hg] at h'
        exact Or.inl h'
    · exact Or.inr ⟨f, List.mem_cons_of_mem _ hf, rfl⟩

theorem recLookup_msize {fs : List (String × CV)} {key : String} {v : CV}
    (h : recLookup fs key = some v) : v.msize + 1 ≤ msizeFields fs := by
  rcases recLookup_acc_mem fs none key h with h' | ⟨f, hf, rfl⟩
  · cases h'
  · exact mem_msizeFields hf

theorem recLookup_default_msize (fs : Option (List (String × CV))) (key : String) :
    ((recLookup (fs.getD []) key).getD (CV.vstr "null")).msize ≤ msizeFieldsOpt fs + 1 := by
  cases fs with
  | none => simp [recLookup, CV.msize, msizeFieldsOpt]
  | some l =>
    cases h : recLookup l key with
    | none => simp [h, CV.msize, msizeFieldsOpt]
    | some v =>
      have := recLookup_msize h
      simp [h, msizeFieldsOpt]
      omega

theorem items_default_msize (items : Option CV) :
    ((items.getD (CV.vstr "")).msize) ≤ msizeOpt items + 1 := by
  cases items <;> simp [CV.msize, msizeOpt]

theorem all_congr_mem {α : Type} {l : List α} {f g : α → Bool}
    (h : ∀ x ∈ l, f x = g x) : l.all f = l.all g := by
  induction l with
  | nil => rfl
  | cons x xs ih =>
    simp only [List.all_cons]
    rw [h x (List.mem_cons_self ..), ih fun y hy => h y (List.mem_cons_of_mem _ hy)]

theorem any_congr_mem {α : Type} {l : List α} {f g : α → Bool}
    (h : ∀ x ∈ l, f x = g x) : l.any f = l.any g := by
  induction l with
  | nil => rfl
  | cons x xs ih =>
    simp only [List.any_cons]
    rw [h x (List.mem_cons_self ..), ih fun y hy => h y (List.mem_cons_of_mem _ hy)]

theorem dec_items (sty : CV) (sitems : Option CV) (sfields : Option (List (String × CV)))
    (ssfs : List SecFile) (snc : Bool) :
    (sitems.getD (CV.vstr "")).msize + 6 ≤ (CV.vmap sty sitems sfields ssfs snc).msize := by
  have h1 := items_default_msize sitems
  have h2 := msize_pos sty
  simp only [CV.msize]
  omega

theorem dec_rec (key : String) (sty : CV) (sitems : Option CV)
    (sfields : Option (List (String × CV))) (ssfs : List SecFile) (snc : Bool) :
    ((recLookup (sfields.getD []) key).getD (CV.vstr "null")).msize + 5 ≤
      (CV.vmap sty sitems sfields ssfs snc).msize := by
  have h1 := recLookup_default_msize sfields key
  have h2 := msize_pos sty
  simp only [CV.msize]
  omega

theorem dec_ty (sty : CV) (sitems : Option CV) (sfields : Option (List (String × CV)))
    (ssfs : List SecFile) (snc : Bool) :
    sty.msize + 7 ≤ (CV.vmap sty sitems sfields ssfs snc).msize := by
  simp only [CV.msize]
  omega

theorem dec_mem {b : CV} {xs : List CV} (h : b ∈ xs) :
    b.msize + 1 ≤ (CV.vlist xs).msize := by
  have := mem_msizeList h
  simp only [CV.msize]
  omega

/-- The fuel on `can_assignF` is irrelevant once it reaches
`src.msize + sink.msize`: the recursion of `can_assign_src_to_sink` always
descends to structurally smaller values. -/
theorem can_assignF_fuel_eq :
    ∀ (n f₁ f₂ : Nat) (src sink : CV) (strict : Bool),
      src.msize + sink.msize ≤ n →
      src.msize + sink.msize ≤ f₁ → src.msize + sink.msize ≤ f₂ →
      can_assignF f₁ src sink strict = can_assignF f₂ src sink strict := by
  intro n
  induction n using Nat.strong_induction_on with
  | _ n IH =>
    intro f₁ f₂ src sink strict hn h₁ h₂
    have hs := msize_pos src
    have ht := msize_pos sink
    obtain ⟨a, rfl⟩ : ∃ a, f₁ = a + 1 := ⟨f₁ - 1, by omega⟩
    obtain ⟨b, rfl⟩ : ∃ b, f₂ = b + 1 := ⟨f₂ - 1, by omega⟩
    have key : ∀ (x y : CV) (s' : Bool), x.msize + y.msize + 1 ≤ src.msize + sink.msize →
        can_assignF a x y s' = can_assignF b x y s' := by
      intro x y s' hxy
      exact IH (x.msize + y.msize) (by omega) a b x y s' le_rfl (by omega) (by omega)
    simp only [can_assignF]
    by_cases hA : (isAny src || isAny sink) = true
    · simp [hA]
    · simp only [Bool.not_eq_true] at hA
      simp only [hA]
      cases src with
      | vstr s =>
        cases sink with
        | vstr t => rfl
        | vlist ts =>
          apply any_congr_mem
          intro tb htb
          exact key _ _ _ (by have := dec_mem htb; simp only [CV.msize] at *; omega)
        | vmap tty titems tfields tsfs tnc => rfl
      | vlist xs =>
        have hbr : ∀ (snk : CV), snk.msize ≤ sink.msize →
            (if strict then xs.all (fun b' => can_assignF a b' snk false)
             else xs.any (fun b' => !(isNullStr b') && can_assignF a b' snk false)) =
            (if strict then xs.all (fun b' => can_assignF b b' snk false)
             else xs.any (fun b' => !(isNullStr b') && can_assignF b b' snk false)) := by
          intro snk hsnk
          refine if_congr Iff.rfl ?_ ?_
          · apply all_congr_mem
            intro x hx
            exact key _ _ _ (by have := dec_mem hx; simp only [CV.msize] at *; omega)
          · apply any_congr_mem
            intro x hx
            rw [key _ _ _ (by have := dec_mem hx; simp only [CV.msize] at *; omega)]
        cases sink with
        | vstr t => exact hbr _ le_rfl
        | vlist ts => exact hbr _ le_rfl
        | vmap tty titems tfields tsfs tnc => exact hbr _ le_rfl
      | vmap sty sitems sfields ssfs snc =>
        cases sink with
        | vstr t => rfl
        | vlist ts =>
          apply any_congr_mem
          intro tb htb
          exact key _ _ _ (by have := dec_mem htb; simp only [CV.msize] at *; omega)
        | vmap tty titems tfields tsfs tnc =>
          by_cases h1 : (tnc && strict) = true
          · simp [h1]
          · simp only [Bool.not_eq_true] at h1
            simp only [h1]
            by_cases h2 : (sty.isStr "array" && tty.isStr "array") = true
            · simp only [h2, if_pos]
              apply key
              have d1 := dec_items sty sitems sfields ssfs snc
              have d2 := dec_items tty titems tfields tsfs tnc
              omega
            · simp only [Bool.not_eq_true] at h2
              simp only [h2]
              by_cases h3 : (sty.isStr "record" && tty.isStr "record") = true
              · simp only [h3, if_pos]
                apply all_congr_mem
                intro k _hk
                apply key
                have d1 := dec_rec k sty sitems sfields ssfs snc
                have d2 := dec_rec k tty titems tfields tsfs tnc
                omega
              · simp only [Bool.not_eq_true] at h3
                simp only [h3]
                by_cases h4 : (sty.isStr "File" && tty.isStr "File") = true
                · simp [h4]
                · simp only [Bool.not_eq_true] at h4
                  simp only [h4, if_neg]
                  apply key
                  have d1 := dec_ty sty sitems sfields ssfs snc
                  have d2 := dec_ty tty titems tfields tsfs tnc
                  omega

/-- Any sufficient fuel computes `can_assign_src_to_sink`. -/
theorem can_assignF_eq_can_assign {f : Nat} {src sink : CV} {strict : Bool}
    (h : src.msize + sink.msize ≤ f) :
    can_assignF f src sink strict = can_assign_src_to_sink src sink strict :=
  can_assignF_fuel_eq f f (src.msize + sink.msize) src sink strict h h le_rfl

/-- Unfolding `can_assign_src_to_sink` at a union (list) source with a
non-`"Any"` sink: in strict mode every branch, in non-strict mode some
non-`"null"` branch, is checked against the sink in *default non-strict*
mode (checker.py lines 98-107). -/
theorem can_assign_src_list (xs : List CV) (sink : CV) (strict : Bool)
    (hA : isAny sink = false) :
    can_assign_src_to_sink (.vlist xs) sink strict =
      if strict then xs.all (fun b => can_assign_src_to_sink b sink false)
      else xs.any (fun b => !(isNullStr b) && can_assign_src_to_sink b sink false) := by
  obtain ⟨a, ha⟩ : ∃ a, (CV.vlist xs).msize + sink.msize = a + 1 :=
    ⟨(CV.vlist xs).msize + sink.msize - 1, by have := msize_pos sink; simp only [CV.msize]; omega⟩
  have key : ∀ b ∈ xs, can_assignF a b sink false = can_assign_src_to_sink b sink false := by
    intro b hb
    have := dec_mem hb
    exact can_assignF_eq_can_assign (by omega)
  have hc : (isAny (CV.vlist xs) || isAny sink) = false := by rw [hA]; rfl
  rw [show can_assign_src_to_sink (CV.vlist xs) sink strict =
      can_assignF (a + 1) (CV.vlist xs) sink strict from by
    unfold can_assign_src_to_sink; rw [ha]]
  cases sink <;>
    (simp only [can_assignF]
     rw [hc, if_neg (by simp)]
     exact if_congr Iff.rfl (all_congr_mem fun x hx => key x hx)
       (any_congr_mem fun x hx => by rw [key x hx]))

/-- `src == "Any" or sink == "Any"` accepts immediately (source side). -/
theorem can_assign_any_src (src sink : CV) (strict : Bool) (h : isAny src = true) :
    can_assign_src_to_sink src sink strict = true := by
  obtain ⟨a, ha⟩ : ∃ a, src.msize + sink.msize = a + 1 :=
    ⟨src.msize + sink.msize - 1, by have := msize_pos src; have := msize_pos sink; omega⟩
  unfold can_assign_src_to_sink
  rw [ha]
  simp only [can_assignF]
  rw [h]
  simp

/-- `src == "Any" or sink == "Any"` accepts immediately (sink side). -/
theorem can_assign_any_sink (src sink : CV) (strict : Bool) (h : isAny sink = true) :
    can_assign_src_to_sink src sink strict = true := by
  obtain ⟨a, ha⟩ : ∃ a, src.msize + sink.msize = a + 1 :=
    ⟨src.msize + sink.msize - 1, by have := msize_pos src; have := msize_pos sink; omega⟩
  unfold can_assign_src_to_sink
  rw [ha]
  simp only [can_assignF]
  rw [h]
  simp

/-- Unfolding `can_assign_src_to_sink` at two mappings (checker.py lines
76-97): `not_connected` + strict rejects, arrays recurse on `items`,
records compare fields, `File`s compare `secondaryFiles` in strict mode,
anything else recurses on the `"type"` values. -/
theorem can_assign_map_map (sty : CV) (sitems : Option CV)
    (sfields : Option (List (String × CV))) (ssfs : List SecFile) (snc : Bool)
    (tty : CV) (titems : Option CV) (tfields : Option (List (String × CV)))
    (tsfs : List SecFile) (tnc : Bool) (strict : Bool) :
    can_assign_src_to_sink (.vmap sty sitems sfields ssfs snc)
        (.vmap tty titems tfields tsfs tnc) strict =
      if tnc && strict then false
      else if sty.isStr "array" && tty.isStr "array" then
        can_assign_src_to_sink (sitems.getD (.vstr "")) (titems.getD (.vstr "")) strict
      else if sty.isStr "record" && tty.isStr "record" then
        ((tfields.getD []).map (fun f => shortname f.1)).all (fun key =>
          can_assign_src_to_sink ((recLookup (sfields.getD []) key).getD (.vstr "null"))
            ((recLookup (tfields.getD []) key).getD (.vstr "null")) strict)
      else if sty.isStr "File" && tty.isStr "File" then
        if strict then tsfs.all (fun sf => ssfs.contains sf) else true
      else can_assign_src_to_sink sty tty strict := by
  obtain ⟨a, ha⟩ : ∃ a, (CV.vmap sty sitems sfields ssfs snc).msize +
      (CV.vmap tty titems tfields tsfs tnc).msize = a + 1 :=
    ⟨(CV.vmap sty sitems sfields ssfs snc).msize +
      (CV.vmap tty titems tfields tsfs tnc).msize - 1, by
      have := msize_pos (CV.vmap sty sitems sfields ssfs snc)
      have := msize_pos (CV.vmap tty titems tfields tsfs tnc)
      omega⟩
  have hsz : a + 1 = (CV.vmap sty sitems sfields ssfs snc).msize +
      (CV.vmap tty titems tfields tsfs tnc).msize := ha.symm
  rw [show can_assign_src_to_sink (CV.vmap sty sitems sfields ssfs snc)
        (CV.vmap tty titems tfields tsfs tnc) strict =
      can_assignF (a + 1) (CV.vmap sty sitems sfields ssfs snc)
        (CV.vmap tty titems tfields tsfs tnc) strict from by
    unfold can_assign_src_to_sink; rw [ha]]
  simp only [can_assignF]
  rw [if_neg (by simp [isAny, CV.isStr])]
  refine if_congr Iff.rfl rfl (if_congr Iff.rfl ?_ (if_congr Iff.rfl ?_
    (if_congr Iff.rfl rfl ?_)))
  · apply can_assignF_eq_can_assign
    have d1 := dec_items sty sitems sfields ssfs snc
    have d2 := dec_items tty titems tfields tsfs tnc
    omega
  · apply all_congr_mem
    intro k _hk
    apply can_assignF_eq_can_assign
    have d1 := dec_rec k sty sitems sfields ssfs snc
    have d2 := dec_rec k tty titems tfields tsfs tnc
    omega
  · apply can_assignF_eq_can_assign
    have d1 := dec_ty sty sitems sfields ssfs snc
    have d2 := dec_ty tty titems tfields tsfs tnc
    omega

/-- Unfolding at a string source (not `"Any"`) and list sink: some sink
branch must accept the source, in default non-strict mode (lines 108-112). -/
theorem can_assign_vstr_sink_list (s : String) (ts : List CV) (strict : Bool)
    (hA : (s == "Any") = false) :
    can_assign_src_to_sink (.vstr s) (.vlist ts) strict =
      ts.any (fun tb => can_assign_src_to_sink (.vstr s) tb false) := by
  obtain ⟨a, ha⟩ : ∃ a, (CV.vstr s).msize + (CV.vlist ts).msize = a + 1 :=
    ⟨(CV.vstr s).msize + (CV.vlist ts).msize - 1, by
      have := msize_pos (CV.vlist ts); simp only [CV.msize] at *; omega⟩
  rw [show can_assign_src_to_sink (CV.vstr s) (CV.vlist ts) strict =
      can_assignF (a + 1) (CV.vstr s) (CV.vlist ts) strict from by
    unfold can_assign_src_to_sink; rw [ha]]
  simp only [can_assignF]
  rw [if_neg (by simp [isAny, CV.isStr, hA])]
  apply any_congr_mem
  intro tb htb
  apply can_assignF_eq_can_assign
  have := dec_mem htb
  simp only [CV.msize] at *
  omega

/-- Unfolding at a mapping source and list sink: some sink branch must
accept the source, in default non-strict mode (lines 108-112). -/
theorem can_assign_vmap_sink_list (sty : CV) (sitems : Option CV)
    (sfields : Option (List (String × CV))) (ssfs : List SecFile) (snc : Bool)
    (ts : List CV) (strict : Bool) :
    can_assign_src_to_sink (.vmap sty sitems sfields ssfs snc) (.vlist ts) strict =
      ts.any (fun tb =>
        can_assign_src_to_sink (.vmap sty sitems sfields ssfs snc) tb false) := by
  obtain ⟨a, ha⟩ : ∃ a, (CV.vmap sty sitems sfields ssfs snc).msize +
      (CV.vlist ts).msize = a + 1 :=
    ⟨(CV.vmap sty sitems sfields ssfs snc).msize + (CV.vlist ts).msize - 1, by
      have := msize_pos (CV.vmap sty sitems sfields ssfs snc)
      simp only [CV.msize] at *; omega⟩
  rw [show can_assign_src_to_sink (CV.vmap sty sitems sfields ssfs snc) (CV.vlist ts) strict =
      can_assignF (a + 1) (CV.vmap sty sitems sfields ssfs snc) (CV.vlist ts) strict from by
    unfold can_assign_src_to_sink; rw [ha]]
  simp only [can_assignF]
  rw [if_neg (by simp [isAny, CV.isStr])]
  apply any_congr_mem
  intro tb htb
  apply can_assignF_eq_can_assign
  have := dec_mem htb
  have := dec_ty sty sitems sfields ssfs snc
  simp only [CV.msize] at *
  omega

/-- The scalar fallback: two strings are assignable iff one is `"Any"` or
they are equal (lines 74 and 113). -/
theorem can_assign_vstr_vstr (s t : String) (strict : Bool) :
    can_assign_src_to_sink (.vstr s) (.vstr t) strict =
      ((s == "Any") || (t == "Any") || (s == t)) := by
  unfold can_assign_src_to_sink
  simp only [CV.msize]
  simp only [can_assignF, isAny, CV.isStr, strEqCV]
  by_cases h1 : (s == "Any") = true
  · simp [h1]
  · by_cases h2 : (t == "Any") = true
    · simp [h1, h2]
    · simp only [Bool.not_eq_true] at h1 h2
      simp [h1, h2]

/-- A mapping source never equals the string `"Any"`, so a string sink that
is not `"Any"` only accepts it through the fallback, which fails. -/
theorem can_assign_vmap_vstr (sty : CV) (sitems : Option CV)
    (sfields : Option (List (String × CV))) (ssfs : List SecFile) (snc : Bool)
    (t : String) (strict : Bool) :
    can_assign_src_to_sink (.vmap sty sitems sfields ssfs snc) (.vstr t) strict =
      (t == "Any") := by
  obtain ⟨a, ha⟩ : ∃ a, (CV.vmap sty sitems sfields ssfs snc).msize +
      (CV.vstr t).msize = a + 1 :=
    ⟨(CV.vmap sty sitems sfields ssfs snc).msize + (CV.vstr t).msize - 1, by
      have := msize_pos (CV.vmap sty sitems sfields ssfs snc)
      simp only [CV.msize] at *; omega⟩
  rw [show can_assign_src_to_sink (CV.vmap sty sitems sfields ssfs snc) (CV.vstr t) strict =
      can_assignF (a + 1) (CV.vmap sty sitems sfields ssfs snc) (CV.vstr t) strict from by
    unfold can_assign_src_to_sink; rw [ha]]
  simp only [can_assignF, isAny, CV.isStr, strEqCV]
  by_cases h2 : (t == "Any") = true
  · simp [h2]
  · simp only [Bool.not_eq_true] at h2
    simp [h2]

/-- A string source that is not `"Any"` against a mapping sink only goes
through the fallback, which fails. -/
theorem can_assign_vstr_vmap (s : String) (tty : CV) (titems : Option CV)
    (tfields : Option (List (String × CV))) (tsfs : List SecFile) (tnc : Bool)
    (strict : Bool) :
    can_assign_src_to_sink (.vstr s) (.vmap tty titems tfields tsfs tnc) strict =
      (s == "Any") := by
  obtain ⟨a, ha⟩ : ∃ a, (CV.vstr s).msize +
      (CV.vmap tty titems tfields tsfs tnc).msize = a + 1 :=
    ⟨(CV.vstr s).msize + (CV.vmap tty titems tfields tsfs tnc).msize - 1, by
      have := msize_pos (CV.vmap tty titems tfields tsfs tnc)
      simp only [CV.msize] at *; omega⟩
  rw [show can_assign_src_to_sink (CV.vstr s) (CV.vmap tty titems tfields tsfs tnc) strict =
      can_assignF (a + 1) (CV.vstr s) (CV.vmap tty titems tfields tsfs tnc) strict from by
    unfold can_assign_src_to_sink; rw [ha]]
  simp only [can_assignF, isAny, CV.isStr, strEqCV]
  by_cases h2 : (s == "Any") = true
  · simp [h2]
  · simp only [Bool.not_eq_true] at h2
    simp [h2]

theorem not_isNullStr_iff (b : CV) : (!isNullStr b) = true ↔ b ≠ CV.vstr "null" := by
  cases b <;> simp [isNullStr, CV.isStr]

theorem isAny_eq_false_iff (t : CV) : isAny t = false ↔ t ≠ CV.vstr "Any" := by
  cases t <;> simp [isAny, CV.isStr]

/-- Claim C5, counterexample.  The claim states that in strict mode a union
source is assignable iff every branch is assignable *in strict mode*.  The
source code checks every branch with the default non-strict mode instead:
for the source `[["int", "string"]]` and sink `"int"`, strict assignability
of the whole union holds although its only branch `["int", "string"]` is
not strictly assignable to `"int"`. -/
theorem claim_C5_counterexample :
    can_assign_src_to_sink (.vlist [.vlist [.vstr "int", .vstr "string"]])
        (.vstr "int") true = true ∧
    can_assign_src_to_sink (.vlist [.vstr "int", .vstr "string"])
        (.vstr "int") true = false := by
  constructor <;> decide

/-- Claim C5, amended: for a union (list) source and a sink other than
`"Any"` (an `"Any"` sink accepts outright before the union rule is
reached), strict-mode assignability holds iff every branch is assignable to
the sink in *default non-strict* mode, and non-strict assignability holds
iff some branch other than `"null"` is assignable in non-strict mode. -/
theorem claim_C5 (xs : List CV) (sink : CV) (hA : isAny sink = false) :
    (can_assign_src_to_sink (.vlist xs) sink true = true ↔
      ∀ b ∈ xs, can_assign_src_to_sink b sink false = true) ∧
    (can_assign_src_to_sink (.vlist xs) sink false = true ↔
      ∃ b ∈ xs, b ≠ CV.vstr "null" ∧ can_assign_src_to_sink b sink false = true) := by
  rw [can_assign_src_list xs sink true hA, can_assign_src_list xs sink false hA]
  constructor
  · simp [List.all_eq_true]
  · simp only [if_neg (by simp : ¬ (false = true)), List.any_eq_true,
      Bool.and_eq_true]
    constructor
    · rintro ⟨b, hb, hn, hc⟩
      exact ⟨b, hb, (not_isNullStr_iff b).mp hn, hc⟩
    · rintro ⟨b, hb, hn, hc⟩
      exact ⟨b, hb, (not_isNullStr_iff b).mpr hn, hc⟩

/-- Claim C5, witness at a concrete input. -/
theorem claim_C5_witness :
    (can_assign_src_to_sink (.vlist [.vstr "int"]) (.vstr "int") true = true ↔
      ∀ b ∈ [CV.vstr "int"], can_assign_src_to_sink b (.vstr "int") false = true) ∧
    (can_assign_src_to_sink (.vlist [.vstr "int"]) (.vstr "int") false = true ↔
      ∃ b ∈ [CV.vstr "int"], b ≠ CV.vstr "null" ∧
        can_assign_src_to_sink b (.vstr "int") false = true) :=
  claim_C5 [.vstr "int"] (.vstr "int") (by decide)

/-- Claim C6, counterexample.  The claim states that *every* source is
rejected in strict mode by a sink carrying `not_connected: true`.  But
`src == "Any" or sink == "Any"` is checked first (line 74), before the
`not_connected` test (line 77), so the source `"Any"` is accepted by a
not-connected sink even in strict mode. -/
theorem claim_C6_counterexample :
    can_assign_src_to_sink (.vstr "Any")
      (.vmap (.vstr "int") none none [] true) true = true := by decide

/-- Claim C6, amended: a *mapping* source is always rejected in strict mode
by a mapping sink carrying `not_connected: true` (the `"Any"` shortcut
cannot fire for a mapping, and the `not_connected` test precedes all other
mapping/mapping comparisons); non-mapping sources such as `"Any"` or unions
escape the marker test; with `strict=false` the marker does not by itself
force rejection. -/
theorem claim_C6 :
    (∀ (sty : CV) (sitems : Option CV) (sfields : Option (List (String × CV)))
       (ssfs : List SecFile) (snc : Bool) (tty : CV) (titems : Option CV)
       (tfields : Option (List (String × CV))) (tsfs : List SecFile),
      can_assign_src_to_sink (.vmap sty sitems sfields ssfs snc)
        (.vmap tty titems tfields tsfs true) true = false) ∧
    can_assign_src_to_sink (.vmap (.vstr "int") none none [] false)
      (.vmap (.vstr "int") none none [] true) false = true := by
  constructor
  · intro sty sitems sfields ssfs snc tty titems tfields tsfs
    rw [can_assign_map_map]
    simp
  · decide

/-- Claim C10: the empty union as source.  In strict mode the quantification
over branches is vacuous, so every sink accepts (an `"Any"` sink accepts
even earlier); in non-strict mode no branch can match, so every sink other
than `"Any"` rejects. -/
theorem claim_C10 :
    (∀ sink : CV, can_assign_src_to_sink (.vlist []) sink true = true) ∧
    (∀ sink : CV, isAny sink = false →
      can_assign_src_to_sink (.vlist []) sink false = false) := by
  constructor
  · intro sink
    by_cases hA : isAny sink = true
    · exact can_assign_any_sink _ _ _ hA
    · rw [can_assign_src_list [] sink true (by simpa using hA)]
      simp
  · intro sink hA
    rw [can_assign_src_list [] sink false hA]
    simp

/-- Claim C10, witness at a concrete input. -/
theorem claim_C10_witness :
    can_assign_src_to_sink (.vlist []) (.vstr "int") true = true ∧
    can_assign_src_to_sink (.vlist []) (.vstr "int") false = false :=
  ⟨claim_C10.1 (.vstr "int"), claim_C10.2 (.vstr "int") (by decide)⟩

/-- Is the value a Python list? -/
def isList : CV → Bool
  | .vlist _ => true
  | _ => false

mutual
/-- Well-formedness for the reflexivity property (claim C7, amended): no
`not_connected` marker, every union is flat (no union directly inside a
union) and has at least one non-`"null"` branch, recursively at every
subterm. -/
def reflSafe : CV → Bool
  | .vstr _ => true
  | .vlist xs => reflSafeList xs && xs.any (fun b => !(isNullStr b)) &&
      xs.all (fun b => !(isList b))
  | .vmap ty items fields _ nc =>
      !nc && reflSafe ty && reflSafeOpt items && reflSafeFieldsOpt fields
def reflSafeList : List CV → Bool
  | [] => true
  | x :: xs => reflSafe x && reflSafeList xs
def reflSafeOpt : Option CV → Bool
  | none => true
  | some x => reflSafe x
def reflSafeFields : List (String × CV) → Bool
  | [] => true
  | f :: fs => reflSafe f.2 && reflSafeFields fs
def reflSafeFieldsOpt : Option (List (String × CV)) → Bool
  | none => true
  | some fs => reflSafeFields fs
end

theorem reflSafeList_mem {xs : List CV} (h : reflSafeList xs = true) :
    ∀ b ∈ xs, reflSafe b = true := by
  induction xs with
  | nil => intro b hb; cases hb
  | cons x xs ih =>
    simp only [reflSafeList, Bool.and_eq_true] at h
    intro b hb
    rcases List.mem_cons.mp hb with rfl | hb'
    · exact h.1
    · exact ih h.2 b hb'

theorem reflSafeFields_mem {fs : List (String × CV)} (h : reflSafeFields fs = true) :
    ∀ f ∈ fs, reflSafe f.2 = true := by
  induction fs with
  | nil => intro f hf; cases hf
  | cons g gs ih =>
    simp only [reflSafeFields, Bool.and_eq_true] at h
    intro f hf
    rcases List.mem_cons.mp hf with rfl | hf'
    · exact h.1
    · exact ih h.2 f hf'

theorem contains_of_mem (l : List SecFile) (x : SecFile) (h : x ∈ l) :
    l.contains x = true := by
  simpa [List.contains] using List.elem_eq_true_of_mem h

theorem dec_rec_lookup {fields : Option (List (String × CV))} {k : String} {v : CV}
    (hq : recLookup (fields.getD []) k = some v)
    (ty : CV) (items : Option CV) (sfs : List SecFile) (nc : Bool) :
    v.msize + 8 ≤ (CV.vmap ty items fields sfs nc).msize := by
  have h1 := recLookup_msize hq
  have h2 := msize_pos ty
  cases fields with
  | none => simp [recLookup] at hq
  | some fs =>
    simp only [Option.getD_some] at h1
    simp only [CV.msize, msizeFieldsOpt]
    omega

theorem reflSafe_lookup {fields : Option (List (String × CV))} {k : String} {v : CV}
    (hq : recLookup (fields.getD []) k = some v)
    (hsafe : reflSafeFieldsOpt fields = true) : reflSafe v = true := by
  rcases recLookup_acc_mem _ none k hq with h | ⟨f, hf, rfl⟩
  · cases h
  · cases fields with
    | none => cases hf
    | some fs =>
      simp only [Option.getD_some] at hf
      exact reflSafeFields_mem hsafe f hf

/-- Reflexivity of the assignability oracle on `reflSafe` types, in both
modes at once (the union case needs the non-strict instance on branches). -/
theorem reflSafe_refl :
    ∀ (n : Nat) (t : CV), t.msize ≤ n → reflSafe t = true →
      ∀ strict, can_assign_src_to_sink t t strict = true := by
  intro n
  induction n using Nat.strong_induction_on with
  | _ n IH =>
    intro t hn hsafe strict
    cases t with
    | vstr s => rw [can_assign_vstr_vstr]; simp
    | vlist xs =>
      simp only [reflSafe, Bool.and_eq_true] at hsafe
      obtain ⟨⟨hlist, hnn⟩, hfl⟩ := hsafe
      have hN : ∀ b ∈ xs, can_assign_src_to_sink b (CV.vlist xs) false = true := by
        intro b hb
        have hbsafe : reflSafe b = true := reflSafeList_mem hlist b hb
        have hbm := dec_mem hb
        have hbrefl : can_assign_src_to_sink b b false = true :=
          IH b.msize (by omega) b le_rfl hbsafe false
        by_cases hAny : isAny b = true
        · exact can_assign_any_src _ _ _ hAny
        · cases b with
          | vstr s =>
            rw [can_assign_vstr_sink_list s xs false (by simpa [isAny, CV.isStr] using hAny)]
            exact List.any_eq_true.mpr ⟨_, hb, hbrefl⟩
          | vlist ys =>
            exfalso
            have := List.all_eq_true.mp hfl _ hb
            simp [isList] at this
          | vmap a b' c d e =>
            rw [can_assign_vmap_sink_list]
            exact List.any_eq_true.mpr ⟨_, hb, hbrefl⟩
      cases strict with
      | true =>
        rw [can_assign_src_list xs (CV.vlist xs) true rfl, if_pos rfl]
        exact List.all_eq_true.mpr hN
      | false =>
        rw [can_assign_src_list xs (CV.vlist xs) false rfl, if_neg (by simp)]
        obtain ⟨b₀, hb₀, hnb₀⟩ := List.any_eq_true.mp hnn
        exact List.any_eq_true.mpr
          ⟨b₀, hb₀, by rw [Bool.and_eq_true]; exact ⟨hnb₀, hN b₀ hb₀⟩⟩
    | vmap ty items fields sfs nc =>
      simp only [reflSafe, Bool.and_eq_true] at hsafe
      obtain ⟨⟨⟨hnc, hty⟩, hitems⟩, hfields⟩ := hsafe
      have hnc' : nc = false := by
        cases nc
        · rfl
        · simp at hnc
      subst hnc'
      rw [can_assign_map_map]
      rw [if_neg (by simp)]
      by_cases h2 : (ty.isStr "array" && ty.isStr "array") = true
      · rw [if_pos h2]
        cases items with
        | none =>
          simp only [Option.getD_none]
          rw [can_assign_vstr_vstr]
          simp
        | some x =>
          simp only [Option.getD_some]
          have hxsafe : reflSafe x = true := by simpa [reflSafeOpt] using hitems
          have hd := dec_items ty (some x) fields sfs false
          simp only [Option.getD_some] at hd
          exact IH x.msize (by omega) x le_rfl hxsafe strict
      · rw [if_neg h2]
        by_cases h3 : (ty.isStr "record" && ty.isStr "record") = true
        · rw [if_pos h3]
          apply List.all_eq_true.mpr
          intro k _hk
          cases hq : recLookup (fields.getD []) k with
          | none =>
            simp only [Option.getD_none]
            rw [can_assign_vstr_vstr]
            simp
          | some v =>
            simp only [Option.getD_some]
            have hv := reflSafe_lookup hq hfields
            have hvm := dec_rec_lookup hq ty items sfs false
            exact IH v.msize (by omega) v le_rfl hv strict
        · rw [if_neg h3]
          by_cases h4 : (ty.isStr "File" && ty.isStr "File") = true
          · rw [if_pos h4]
            cases strict with
            | true =>
              rw [if_pos rfl]
              exact List.all_eq_true.mpr (fun sf hsf => contains_of_mem sfs sf hsf)
            | false => rw [if_neg (by simp)]
          · rw [if_neg h4]
            have hd := dec_ty ty items fields sfs false
            exact IH ty.msize (by omega) ty le_rfl hty strict

/-- Claim C7, counterexample.  The claim asserts reflexivity of strict
assignability for *every* well-formed type expression, unions included.
The spec grammar allows unions as branches of unions, and for the nested
union `[["null"]]` strict self-assignability fails: the strict loop checks
the branch `["null"]` against the whole union in non-strict mode, and the
non-strict union rule skips the only branch `"null"` of the inner union. -/
theorem claim_C7_counterexample :
    can_assign_src_to_sink (.vlist [.vlist [.vstr "null"]])
      (.vlist [.vlist [.vstr "null"]]) true = false := by decide

/-- Claim C7, amended: `can_assign_src_to_sink t t true = true` for every
well-formed `t` that carries no `not_connected` marker and whose unions are
flat (no union directly under a union) with at least one non-`"null"`
branch — primitives, arrays, records, enums, `File` with `secondaryFiles`,
and such unions, nested arbitrarily. -/
theorem claim_C7 (t : CV) (h : reflSafe t = true) :
    can_assign_src_to_sink t t true = true :=
  reflSafe_refl t.msize t le_rfl h true

/-- Claim C7, witness: reflexivity at a concrete record/File/union type. -/
theorem claim_C7_witness :
    reflSafe (CV.vlist [.vstr "null",
      .vmap (.vstr "array") (some (.vmap (.vstr "record") none
        (some [("file:///w#s/f", .vmap (.vstr "File") none none
          [⟨".bai", some true⟩] false)]) [] false)) none [] false]) = true ∧
    can_assign_src_to_sink
      (CV.vlist [.vstr "null",
        .vmap (.vstr "array") (some (.vmap (.vstr "record") none
          (some [("file:///w#s/f", .vmap (.vstr "File") none none
            [⟨".bai", some true⟩] false)]) [] false)) none [] false])
      (CV.vlist [.vstr "null",
        .vmap (.vstr "array") (some (.vmap (.vstr "record") none
          (some [("file:///w#s/f", .vmap (.vstr "File") none none
            [⟨".bai", some true⟩] false)]) [] false)) none [] false])
      true = true :=
  ⟨by decide, claim_C7 _ (by decide)⟩

/-- `cwltool.utils.aslist` (imported by checker.py; the module is not under
the verified sources, modelled from its use in the spec's §4.D promotion:
a non-list value is wrapped into a one-element list, a list is returned
unchanged). -/
def aslist : CV → List CV
  | .vlist xs => xs
  | t => [t]

/-- Python `"null" in x` for a checker value `x`: substring containment on
a string, element membership on a list (each element compared to the
string `"null"`), key membership on a dict — the modelled dicts never
carry a `"null"` key, so the dict case is `false`. -/
def pyContainsNull : CV → Bool
  | .vstr s => strHasSubstr "null" s
  | .vlist xs => xs.any isNullStr
  | .vmap _ _ _ _ _ => false

/-- The dict `{"items": t, "type": "array"}` built by checker.py at lines
43-47 (`merge_nested`), 60 (`merge_flatten_type`) and at the
`loop`/`all_iterations` promotions (lines 377-380 and 422-426). -/
def wrapArray (t : CV) : CV := .vmap (.vstr "array") (some t) none [] false

/-- The null-widening of a conditional-step source type (lines 402-406 and
420): `aslist` the type, prepend `"null"` when no element equals
`"null"`, and store the resulting *list* back. -/
def widenNull (t : CV) : CV :=
  let src_typ := aslist t
  CV.vlist (if src_typ.any isNullStr then src_typ else CV.vstr "null" :: src_typ)

/-- The conditional-step block for a single-source sink (lines 401-420),
as a function of the source's current type and the sink's declared type:
returns the type written back into the source parameter and the warning
message, if any.  The write-back at line 420 is unconditional; only the
warning depends on the sink's type. -/
def conditional_single_source (srcType sinkType : CV) : CV × Option String :=
  let src_typ := aslist srcType
  let src_typ := if src_typ.any isNullStr then src_typ else CV.vstr "null" :: src_typ
  let warn := if !(pyContainsNull sinkType) then
      some "Source is from conditional step and may produce `null`" else none
  (CV.vlist src_typ, warn)

theorem wrapArray_msize (t : CV) : (wrapArray t).msize = t.msize + 8 := by
  simp only [wrapArray, CV.msize, msizeOpt, msizeFieldsOpt]
  omega

/-- Claim C2, counterexample.  The claim asserts both in-place promotions
are idempotent.  The `loop`/`all_iterations` wrap is not: applying it a
second time to the already-wrapped type `array(int)` yields
`array(array(int))`. -/
theorem claim_C2_counterexample :
    wrapArray (wrapArray (.vstr "int")) ≠ wrapArray (.vstr "int") := by
  simp [wrapArray]

/-- Claim C2, amended: the conditional null-widening is idempotent, but the
`loop`/`all_iterations` array wrap never is — a second application (second
sink referencing the same source id, or a second `static_check` run over
the same mutated objects) wraps the type in another `array` layer, so the
source type, and hence the diagnostics, can change. -/
theorem claim_C2 (t : CV) :
    widenNull (widenNull t) = widenNull t ∧ wrapArray (wrapArray t) ≠ wrapArray t := by
  constructor
  · unfold widenNull
    dsimp only
    by_cases hc : (aslist t).any isNullStr = true
    · rw [if_pos hc]
      have h2 : aslist (CV.vlist (aslist t)) = aslist t := rfl
      rw [h2, if_pos hc]
    · rw [if_neg hc]
      have h2 : aslist (CV.vlist (CV.vstr "null" :: aslist t)) =
          CV.vstr "null" :: aslist t := rfl
      rw [h2, if_pos (by simp [isNullStr, CV.isStr])]
  · intro h
    have h1 := congrArg CV.msize h
    rw [wrapArray_msize, wrapArray_msize] at h1
    omega

/-- Claim C4, counterexample.  The claim asserts that when the sink's type
already includes `null`, neither the warning nor the mutation happens.
For a conditional single source of type `"int"` into a sink of type
`["null", "int"]`: no warning is emitted, but the source type *is*
rewritten (to `["null", "int"]`, a different value than `"int"`). -/
theorem claim_C4_counterexample :
    conditional_single_source (.vstr "int") (.vlist [.vstr "null", .vstr "int"]) =
      (CV.vlist [.vstr "null", .vstr "int"], none) ∧
    CV.vlist [.vstr "null", .vstr "int"] ≠ CV.vstr "int" := by
  exact ⟨rfl, fun h => CV.noConfusion h⟩

/-- Claim C4, amended: for a single-source sink whose owning step is
conditional, the warning `"Source is from conditional step and may produce
`null`"` is emitted exactly when the sink's declared type does not contain
`null` (in the Python `in` sense), while the source's type is *always*
rewritten in place to the null-widened list form, independently of the
sink; the rewritten type always contains `null`. -/
theorem claim_C4 (srcType sinkType : CV) :
    (conditional_single_source srcType sinkType).1 = widenNull srcType ∧
    ((conditional_single_source srcType sinkType).2 = none ↔
      pyContainsNull sinkType = true) ∧
    pyContainsNull (conditional_single_source srcType sinkType).1 = true := by
  refine ⟨rfl, ?_, ?_⟩
  · by_cases hc : pyContainsNull sinkType = true
    · simp [conditional_single_source, hc]
    · simp only [Bool.not_eq_true] at hc
      simp [conditional_single_source, hc]
  · by_cases hn : (aslist srcType).any isNullStr = true
    · simp [conditional_single_source, pyContainsNull, hn]
    · simp only [Bool.not_eq_true] at hn
      simp [conditional_single_source, pyContainsNull, hn, isNullStr, CV.isStr]

/-- `_get_type` (lines 16-20): strip a non-structural mapping wrapper, i.e.
return the `"type"` value unless it is `"array"`, `"record"` or `"enum"`. -/
def _get_type : CV → CV
  | .vmap ty items fields sfs nc =>
      if ty.isStr "array" || ty.isStr "record" || ty.isStr "enum" then
        .vmap ty items fields sfs nc
      else ty
  | t => t

mutual
/-- `merge_flatten_type` (lines 54-60): map over a list, keep an `array`
mapping, wrap anything else in `{"items": src, "type": "array"}`. -/
def merge_flatten_type : CV → CV
  | .vlist xs => .vlist (merge_flatten_list xs)
  | .vmap ty items fields sfs nc =>
      if ty.isStr "array" then .vmap ty items fields sfs nc
      else wrapArray (.vmap ty items fields sfs nc)
  | t => wrapArray t
def merge_flatten_list : List CV → List CV
  | [] => []
  | x :: xs => merge_flatten_type x :: merge_flatten_list xs
end

/-- The `linkMerge` enum.  checker.py raises `WorkflowException` on any
other value (line 51); with a closed embedding that case is
unrepresentable, and no claim exercises it. -/
inductive LinkMerge where
  | merge_nested
  | merge_flattened
deriving DecidableEq, Repr

/-- The result triad of `check_types`. -/
inductive CheckResult where
  | pass
  | warning
  | exception
deriving DecidableEq, Repr

/-- The `linkMerge is None` branch of `check_types` (lines 36-41), which is
also where the `merge_nested` / `merge_flattened` branches land after one
recursion step (their recursive calls pass `linkMerge=None` and
`valueFrom=None`). -/
def check_types_plain (srctype sinktype : CV) : CheckResult :=
  if can_assign_src_to_sink srctype sinktype true then .pass
  else if can_assign_src_to_sink srctype sinktype false then .warning
  else .exception

/-- `check_types` (lines 23-51) with the single recursion step of the
`merge_nested` / `merge_flattened` branches inlined. -/
def check_types (srctype sinktype : CV) (linkMerge : Option LinkMerge)
    (valueFrom : Option String) : CheckResult :=
  if valueFrom.isSome then .pass
  else match linkMerge with
  | none => check_types_plain srctype sinktype
  | some .merge_nested =>
      check_types_plain (wrapArray (_get_type srctype)) (_get_type sinktype)
  | some .merge_flattened =>
      check_types_plain (merge_flatten_type (_get_type srctype)) (_get_type sinktype)

/-- The value of a sink's source field (`source` for step inputs,
`outputSource` for workflow outputs): a single id or a list of ids. -/
inductive SourceVal where
  | single (id : String)
  | many (ids : List String)
deriving DecidableEq, Repr

/-- A parameter dict, restricted to the keys the checker reads.  `source`
holds the value of the sink's source field; `hasDefault` and `valueFrom`
model presence of the `default` / `valueFrom` keys (`valueFrom` values are
opaque expressions — only presence matters). -/
structure Param where
  id : String
  type : CV
  source : Option SourceVal := none
  hasDefault : Bool := false
  valueFrom : Option String := none
  pickValue : Option String := none
  linkMerge : Option LinkMerge := none
  secondaryFiles : List SecFile := []
  not_connected : Bool := false
  used_by_step : Bool := false
deriving Repr

/-- A step dict, as consulted through `param_to_step` and by
`loop_checker`.  Key presence is modelled by booleans / options; a key
present with value `None` is not modelled, so `"when" in step` and
`step.get("when") is not None` coincide. -/
structure Step where
  when : Bool := false
  loop : Bool := false
  scatter : Bool := false
  outputMethod : Option String := none
  run : String := ""
  inputs : List Param := []
deriving Repr

/-- Python dict assignment `d[k] = v` on an insertion-ordered association
list: replace in place when the key exists, else append. -/
def dictUpsert (d : List (String × Param)) (k : String) (v : Param) :
    List (String × Param) :=
  match d with
  | [] => [(k, v)]
  | (k', v') :: rest => if k' == k then (k, v) :: rest else (k', v') :: dictUpsert rest k v

/-- `is_conditional_step` (lines 511-516). -/
def is_conditional_step (param_to_step : List (String × Step)) (parm_id : String) : Bool :=
  match param_to_step.lookup parm_id with
  | some st => st.when
  | none => false

/-- `is_all_output_method_loop_step` (lines 519-528). -/
def is_all_output_method_loop_step (param_to_step : List (String × Step))
    (parm_id : String) : Bool :=
  match param_to_step.lookup parm_id with
  | some st => st.loop && (st.outputMethod == some "all_iterations")
  | none => false

/-- `_SrcSink` (lines 320-326).  The Python named tuple holds *references*
to the parameter dicts; the embedding stores snapshots taken when the
record is appended.  A later in-place promotion of a source parameter is
visible to Python's record but not to the snapshot; this can only change
warning/exception *text* (which no claim reads), never whether or what is
raised. -/
structure SrcSink where
  src : Param
  sink : Param
  linkMerge : Option LinkMerge
  message : Option String
deriving Repr

/-- The `{"warning": [...], "exception": [...]}` result of
`_check_all_types`. -/
structure Validation where
  warning : List SrcSink
  exception : List SrcSink
deriving Repr

/-- Failure modes of the embedded checker: a schema-salad
`ValidationException` carrying its message, or a bare Python `KeyError`
from an unchecked dict subscript. -/
inductive CheckerError where
  | validationError (msg : String)
  | keyError (key : String)
deriving DecidableEq, Repr

/-- The view of a parameter dict taken by `check_types` and
`can_assign_src_to_sink`: a mapping carrying the parameter's `type`,
`secondaryFiles` and `not_connected` keys (parameter dicts have no
`items` / `fields` keys). -/
def Param.asCV (p : Param) : CV :=
  .vmap p.type none none p.secondaryFiles p.not_connected

/-- The per-id loop of the sequence-source branch (lines 365-380): look
each id up — an id absent from `src_dict` raises `KeyError`, because
`src_dict[parm_id]` at line 366 is an unchecked subscript —, record the
conditional-step warning, and apply the `loop`/`all_iterations` array
promotion in place. -/
def resolve_many (param_to_step : List (String × Step)) (sink : Param)
    (linkMerge : Option LinkMerge) (pickValue : Option String) :
    List String → List (String × Param) → List SrcSink →
    Except CheckerError (List (String × Param) × List SrcSink)
  | [], src_dict, warns => .ok (src_dict, warns)
  | parm_id :: rest, src_dict, warns =>
    match src_dict.lookup parm_id with
    | none => .error (.keyError parm_id)
    | some p =>
      let warns' := if is_conditional_step param_to_step parm_id && pickValue.isNone then
          warns ++ [⟨p, sink, linkMerge,
            some "Source is from conditional step, but pickValue is not used"⟩]
        else warns
      let src_dict' := if is_all_output_method_loop_step param_to_step parm_id then
          dictUpsert src_dict parm_id { p with type := wrapArray p.type }
        else src_dict
      resolve_many param_to_step sink linkMerge pickValue rest src_dict' warns'

/-- The final per-sink loop (lines 428-437): run `check_types` on every
resolved source and route the result into the warning or exception
bucket. -/
def run_checks (srcs : List Param) (sink : Param) (linkMerge : Option LinkMerge)
    (valueFrom : Option String) (extra_message : Option String) :
    List SrcSink × List SrcSink :=
  srcs.foldl (fun acc src =>
    match check_types src.asCV sink.asCV linkMerge valueFrom with
    | .warning => (acc.1 ++ [⟨src, sink, linkMerge, extra_message⟩], acc.2)
    | .exception => (acc.1, acc.2 ++ [⟨src, sink, linkMerge, extra_message⟩])
    | .pass => acc) ([], [])

/-- One iteration of `_check_all_types`' sink loop (lines 343-437),
returning the updated source dict and the warnings and exceptions the sink
contributed.  In the sequence branch the sources handed to `check_types`
are re-read from the updated dict, because Python's `srcs_of_sink` holds
references that observe the in-place promotions performed later in the
same iteration. -/
def process_sink (src_dict : List (String × Param)) (sink : Param)
    (sourceField : String) (param_to_step : List (String × Step)) :
    Except CheckerError (List (String × Param) × List SrcSink × List SrcSink) :=
  match sink.source with
  | none => .ok (src_dict, [], [])
  | some sv =>
    let valueFrom := sink.valueFrom
    let pickValue := sink.pickValue
    let extra_message := pickValue.map (fun pv => "pickValue is: " ++ pv)
    match sv with
    | .many ids => do
      let linkMerge₀ : Option LinkMerge :=
        match sink.linkMerge with
        | some lm => some lm
        | none => if ids.length > 1 then some .merge_nested else none
      let linkMerge := if pickValue == some "first_non_null" ||
          pickValue == some "the_only_non_null" then none else linkMerge₀
      let (src_dict', warns) ← resolve_many param_to_step sink linkMerge pickValue
        ids src_dict []
      let srcs := ids.filterMap (fun i => src_dict'.lookup i)
      let (w, e) := run_checks srcs sink linkMerge valueFrom extra_message
      .ok (src_dict', warns ++ w, e)
    | .single parm_id =>
      match src_dict.lookup parm_id with
      | none => .error (.validationError (sourceField ++ " not found: " ++ parm_id))
      | some p₀ =>
        let linkMerge : Option LinkMerge := none
        let warns₁ : List SrcSink := if pickValue.isSome then
            [⟨p₀, sink, linkMerge,
              some "pickValue is used but only a single input source is declared"⟩]
          else []
        let condStep := is_conditional_step param_to_step parm_id
        let widened := conditional_single_source p₀.type sink.type
        let warns₂ : List SrcSink := if condStep then
            match widened.2 with
            | some m => [⟨p₀, sink, linkMerge, some m⟩]
            | none => []
          else []
        let p₁ := if condStep then { p₀ with type := widened.1 } else p₀
        let p₂ := if is_all_output_method_loop_step param_to_step parm_id then
            { p₁ with type := wrapArray p₁.type } else p₁
        let src_dict' := dictUpsert src_dict parm_id p₂
        let (w, e) := run_checks [p₂] sink linkMerge valueFrom extra_message
        .ok (src_dict', warns₁ ++ warns₂ ++ w, e)

/-- `_check_all_types` (lines 329-439): fold `process_sink` over the
sinks, accumulating the warning and exception buckets and threading the
(mutable, promoted in place) source dict. -/
def _check_all_types (src_dict : List (String × Param)) (sinks : List Param)
    (sourceField : String) (param_to_step : List (String × Step)) :
    Except CheckerError (List (String × Param) × Validation) :=
  match sinks with
  | [] => .ok (src_dict, ⟨[], []⟩)
  | sink :: rest => do
    let (d₁, w₁, e₁) ← process_sink src_dict sink sourceField param_to_step
    let (d₂, v) ← _check_all_types d₁ rest sourceField param_to_step
    .ok (d₂, ⟨w₁ ++ v.warning, e₁ ++ v.exception⟩)

/-- `"\n".join` / `", ".join`. -/
def joinStrings (sep : String) : List String → String
  | [] => ""
  | [x] => x
  | x :: xs => x ++ sep ++ joinStrings sep xs

mutual
/-- Stand-in for `schema_salad.utils.json_dumps` as used in diagnostic
text: strings and lists are rendered, mappings abbreviated to their
`"type"` key.  No claim reads this text. -/
def json_dumps : CV → String
  | .vstr s => "\"" ++ s ++ "\""
  | .vlist xs => "[" ++ json_dumps_sep xs ++ "]"
  | .vmap ty _ _ _ _ => "\x7b\"type\": " ++ json_dumps ty ++ "\x7d"
def json_dumps_sep : List CV → String
  | [] => ""
  | [x] => json_dumps x
  | x :: xs => json_dumps x ++ ", " ++ json_dumps_sep xs
end

/-- `missing_subset` (lines 155-161). -/
def missing_subset (fullset subset : List String) : List String :=
  subset.filter (fun i => !(fullset.contains i))

/-- The warning-message assembly of `static_checker` (lines 194-270), with
`SourceLine(..).makeError` as the identity, `bullets` flattened into
newline-joined lines, and the `sorted(..)` calls omitted (they affect only
the order of the printed pattern lists).  The `not_connected` branch reads
`param_to_step[sink.id]`; an absent key would be a Python `KeyError`, which
real inputs cannot produce (the key is recorded for every not-connected
sink) and which is modelled by an empty fallback step. -/
def warning_message (param_to_step : List (String × Step)) (w : SrcSink) : String :=
  let sinksf := (w.sink.secondaryFiles.filter (fun p => p.required.getD true)).map
    (fun p => p.pattern)
  let srcsf := w.src.secondaryFiles.map (fun p => p.pattern)
  let missing := missing_subset srcsf sinksf
  let src_name := shortname w.src.id
  let sink_name := shortname w.sink.id
  let msg :=
    if !missing.isEmpty then
      "Parameter '" ++ sink_name ++ "' requires secondaryFiles [" ++
        joinStrings ", " missing ++ "] but" ++ "\n" ++
        "  source '" ++ src_name ++ "' does not provide those secondaryFiles." ++ "\n" ++
        "  To resolve, add missing secondaryFiles patterns to definition of '" ++
        src_name ++ "' or" ++ "\n" ++
        "  mark missing secondaryFiles in definition of '" ++ sink_name ++ "' as optional."
    else if w.sink.not_connected then
      if !w.sink.used_by_step then
        let st := (param_to_step.lookup w.sink.id).getD {}
        "'" ++ sink_name ++ "' is not an input parameter of " ++ st.run ++
          ", expected " ++ joinStrings ", "
            (((st.inputs.filter (fun s => !s.not_connected)).map (fun s => shortname s.id)))
      else ""
    else
      "Source '" ++ src_name ++ "' of type " ++ json_dumps w.src.type ++
        " may be incompatible" ++ "\n" ++
        "  with sink '" ++ sink_name ++ "' of type " ++ json_dumps w.sink.type ++
        (match w.linkMerge with
         | some .merge_nested => "\n" ++ "  source has linkMerge method merge_nested"
         | some .merge_flattened => "\n" ++ "  source has linkMerge method merge_flattened"
         | none => "")
  match w.message with
  | some m => msg ++ "\n" ++ "  " ++ m
  | none => msg

/-- The exception-message assembly of `static_checker` (lines 272-294). -/
def exception_message (e : SrcSink) : String :=
  let base := "Source '" ++ shortname e.src.id ++ "' of type " ++ json_dumps e.src.type ++
    " is incompatible" ++ "\n" ++
    "  with sink '" ++ shortname e.sink.id ++ "' of type " ++ json_dumps e.sink.type
  let base := match e.message with
    | some m => base ++ "\n" ++ "  " ++ m
    | none => base
  match e.linkMerge with
  | some .merge_nested => base ++ "\n" ++ "  source has linkMerge method merge_nested"
  | some .merge_flattened => base ++ "\n" ++ "  source has linkMerge method merge_flattened"
  | none => base

/-- The condition of the required-parameter sweep (lines 296-304):
`"null" != sink_type and "null" not in sink_type and "source" not in sink
and "default" not in sink and "valueFrom" not in sink`. -/
def requiredParamViolation (sink : Param) : Bool :=
  !(isNullStr sink.type) && !(pyContainsNull sink.type) &&
    sink.source.isNone && !sink.hasDefault && sink.valueFrom.isNone

/-- The message emitted for a required-parameter violation (lines
305-309). -/
def requiredParamMsg (sink : Param) : String :=
  "Required parameter '" ++ shortname sink.id ++
    "' does not have source, default, or valueFrom expression"

/-- `static_checker` (lines 164-317): build the source dict from workflow
inputs and step outputs, enumerate the edges of step inputs and workflow
outputs, assemble warning and exception texts — the required-parameter
sweep appends to `exception_msgs` —, log warnings (modelled as the `ok`
payload) and finally raise `ValidationException(all_exception_msg)` *iff
the `exceptions` list of `_SrcSink` records is non-empty* (line 316: `if
exceptions:`), not whether `exception_msgs` is non-empty.
`strip_dup_lineno` is the identity here, as no modelled message carries
source-line prefixes. -/
def static_checker (workflow_inputs workflow_outputs step_inputs step_outputs : List Param)
    (param_to_step : List (String × Step)) : Except CheckerError (List String) := do
  let src_dict := (workflow_inputs ++ step_outputs).foldl (fun d p => dictUpsert d p.id p) []
  let (d₁, step_inputs_val) ← _check_all_types src_dict step_inputs "source" param_to_step
  let (_, workflow_outputs_val) ← _check_all_types d₁ workflow_outputs "outputSource"
    param_to_step
  let warnings := step_inputs_val.warning ++ workflow_outputs_val.warning
  let exceptions := step_inputs_val.exception ++ workflow_outputs_val.exception
  let warning_msgs := (warnings.map (warning_message param_to_step)).filter
    (fun m => !(m == ""))
  let exception_msgs := exceptions.map exception_message ++
    (step_inputs.filter requiredParamViolation).map requiredParamMsg
  let all_exception_msg := "\n" ++ joinStrings "\n" exception_msgs
  if exceptions.isEmpty then
    .ok warning_msgs
  else
    .error (.validationError all_exception_msg)

/-- A step input typed `int` with no `source`, `default` or `valueFrom`:
the required-parameter sweep fires on it. -/
def reqSink : Param := { id := "file:///w#step1/inp", type := .vstr "int" }

/-- A workflow input of type `string`. -/
def strIn : Param := { id := "file:///w#in1", type := .vstr "string" }

/-- A step input of type `int` wired to `strIn`: a genuine type-mismatch
edge, producing an exception-bucket record. -/
def intSinkFromStr : Param :=
  { id := "file:///w#step1/x"
    type := .vstr "int"
    source := some (.single "file:///w#in1") }

/-- Claim C1, divergence theorem.  The claim (with the spec) says
`static_check` raises a validation failure whenever a required-parameter
violation exists, *including when no source-sink edge produced a
type-mismatch exception*.  The code computes the message and appends it to
`exception_msgs`, but line 316 raises only `if exceptions:` — the list of
`_SrcSink` records from edge enumeration.  So: (1) `reqSink` violates the
required-parameter condition; (2) with `reqSink` as the only step input,
`static_checker` returns normally — nothing is raised or logged; (3) the
message *is* part of the raised text as soon as some edge exception exists
(here the `strIn → intSinkFromStr` mismatch), confirming that surfacing it
is intended. -/
theorem claim_C1 :
    requiredParamViolation reqSink = true ∧
    static_checker [] [] [reqSink] [] [] = .ok [] ∧
    (match static_checker [strIn] [] [reqSink, intSinkFromStr] [] [] with
     | .error (.validationError m) =>
        strHasSubstr
          "Required parameter 'inp' does not have source, default, or valueFrom expression" m
     | _ => false) = true := by
  refine ⟨rfl, rfl, rfl⟩

theorem lookup_dictUpsert (d : List (String × Param)) (k : String) (v : Param)
    (k' : String) :
    (dictUpsert d k v).lookup k' = if k' == k then some v else d.lookup k' := by
  induction d with
  | nil =>
    cases h : (k' == k) with
    | true => simp [dictUpsert, List.lookup, h]
    | false => simp [dictUpsert, List.lookup, h]
  | cons a rest ih =>
    obtain ⟨ak, av⟩ := a
    by_cases hak : (ak == k) = true
    · have hak' : ak = k := eq_of_beq hak
      subst hak'
      simp only [dictUpsert, hak, if_pos rfl]
      by_cases hk' : (k' == ak) = true
      · have : k' = ak := eq_of_beq hk'
        subst this
        simp [List.lookup]
      · simp only [Bool.not_eq_true] at hk'
        simp [List.lookup, hk']
    · simp only [Bool.not_eq_true] at hak
      simp only [dictUpsert, hak]
      by_cases hk' : (k' == ak) = true
      · have : k' = ak := eq_of_beq hk'
        subst this
        have hne : (k' == k) = false := by
          cases h2 : (k' == k) with
          | false => rfl
          | true => rw [eq_of_beq h2] at hak; simp at hak
        simp [List.lookup, hne, hk']
      · simp only [Bool.not_eq_true] at hk'
        simp [List.lookup, hk', ih]

/-- In the sequence branch, the first unresolvable id raises `KeyError`:
resolutions before it may promote types in place, but promotions never
change the key set of the dict. -/
theorem resolve_many_keyError :
    ∀ (pre : List String) (src_dict : List (String × Param)) (warns : List SrcSink)
      (pts : List (String × Step)) (sink : Param) (lm : Option LinkMerge)
      (pv : Option String) (x : String) (post : List String),
      (∀ i ∈ pre, (src_dict.lookup i).isSome) → src_dict.lookup x = none →
      resolve_many pts sink lm pv (pre ++ x :: post) src_dict warns =
        .error (.keyError x) := by
  intro pre
  induction pre with
  | nil =>
    intro d warns pts sink lm pv x post _ hx
    simp [resolve_many, hx]
  | cons i pre' ih =>
    intro d warns pts sink lm pv x post hpre hx
    obtain ⟨p, hp⟩ := Option.isSome_iff_exists.mp (hpre i (List.mem_cons_self ..))
    have hxi : (x == i) = false := by
      cases h2 : (x == i) with
      | false => rfl
      | true => rw [eq_of_beq h2, hp] at hx; cases hx
    simp only [List.cons_append, resolve_many, hp]
    apply ih
    · intro j hj
      by_cases hl : is_all_output_method_loop_step pts i = true
      · rw [if_pos hl, lookup_dictUpsert]
        by_cases hji : (j == i) = true
        · simp [hji]
        · rw [if_neg (by simp [hji])]
          exact hpre j (List.mem_cons_of_mem _ hj)
      · rw [if_neg hl]
        exact hpre j (List.mem_cons_of_mem _ hj)
    · by_cases hl : is_all_output_method_loop_step pts i = true
      · rw [if_pos hl, lookup_dictUpsert]
        rw [if_neg (by simp [hxi])]
        exact hx
      · rw [if_neg hl]
        exact hx

/-- Claim C3, counterexample.  The claim says an unresolvable source id
always causes a *validation exception*, whether the source field is a
single id or a sequence.  In the sequence branch the lookup
`src_dict[parm_id]` (line 366) is an unchecked subscript: with an empty
source index, a sink whose `source` is the list `["file:///w#a/out"]`
produces a Python `KeyError`, not a `ValidationException`. -/
theorem claim_C3_counterexample :
    _check_all_types []
      [{ id := "file:///w#b/i"
         type := .vstr "int"
         source := some (.many ["file:///w#a/out"]) }] "source" [] =
      .error (.keyError "file:///w#a/out") := rfl

/-- Claim C3, amended: a sink whose *single* source id does not resolve
raises a `ValidationException` with text `"<sourceField> not found: <id>"`
(lines 381-386); a sink with a *sequence* source field whose first
unresolvable id is `x` raises a bare `KeyError` on `x` (line 366). -/
theorem claim_C3 :
    (∀ (src_dict : List (String × Param)) (sink : Param) (sourceField : String)
       (pts : List (String × Step)) (pid : String),
      sink.source = some (.single pid) → src_dict.lookup pid = none →
      _check_all_types src_dict [sink] sourceField pts =
        .error (.validationError (sourceField ++ " not found: " ++ pid))) ∧
    (∀ (src_dict : List (String × Param)) (sink : Param) (sourceField : String)
       (pts : List (String × Step)) (pre : List String) (x : String)
       (post : List String),
      sink.source = some (.many (pre ++ x :: post)) →
      (∀ i ∈ pre, (src_dict.lookup i).isSome) → src_dict.lookup x = none →
      _check_all_types src_dict [sink] sourceField pts = .error (.keyError x)) := by
  constructor
  · intro d sink sf pts pid hsrc hlook
    simp only [_check_all_types, process_sink, hsrc, hlook]
    rfl
  · intro d sink sf pts pre x post hsrc hpre hx
    simp only [_check_all_types, process_sink, hsrc]
    rw [resolve_many_keyError pre d [] pts sink _ sink.pickValue x post hpre hx]
    rfl

/-- Claim C3, witness at concrete inputs: a single-source sink with an
absent id, and a sequence-source sink whose first id resolves and whose
second does not. -/
theorem claim_C3_witness :
    _check_all_types []
      [{ id := "file:///w#b/i"
         type := .vstr "int"
         source := some (.single "file:///w#a/out") }] "source" [] =
      .error (.validationError ("source not found: file:///w#a/out")) ∧
    _check_all_types [("file:///w#a/ok", { id := "file:///w#a/ok", type := .vstr "int" })]
      [{ id := "file:///w#b/i"
         type := .vstr "int"
         source := some (.many ["file:///w#a/ok", "file:///w#a/out"]) }] "source" [] =
      .error (.keyError "file:///w#a/out") := by
  constructor
  · exact claim_C3.1 _ _ _ _ "file:///w#a/out" rfl rfl
  · exact claim_C3.2 _ _ _ _ ["file:///w#a/ok"] "file:///w#a/out" [] rfl
      (by intro i hi; simp at hi; subst hi; rfl) rfl

/-- The messages accumulated by `loop_checker` (lines 537-551), one
iteration per step, regrouped as a structural recursion over the steps
(each iteration appends its violation messages in order). -/
def loop_checker_msgs : List Step → List String
  | [] => []
  | step :: rest =>
    (if step.loop then
       (if !step.when then
          ["The `when` clause is mandatory when the `loop` directive is defined."]
        else []) ++
       (if step.scatter then
          ["The `loop` clause is not compatible with the `scatter` directive."]
        else [])
     else []) ++ loop_checker_msgs rest

/-- `loop_checker` (lines 531-553): raise the joined messages iff any. -/
def loop_checker (steps : List Step) : Except CheckerError Unit :=
  let exceptions := loop_checker_msgs steps
  if exceptions.isEmpty then .ok ()
  else .error (.validationError (joinStrings "\n" exceptions))

theorem loop_checker_msgs_ne_nil_iff (steps : List Step) :
    loop_checker_msgs steps ≠ [] ↔
      ∃ st ∈ steps, st.loop = true ∧ (st.when = false ∨ st.scatter = true) := by
  induction steps with
  | nil => simp [loop_checker_msgs]
  | cons st rest ih =>
    cases hl : st.loop <;> cases hw : st.when <;> cases hs : st.scatter <;>
      simp [loop_checker_msgs, hl, hw, hs, ih]

/-- Claim C9: `loop_checker` raises a validation failure iff some step has
`loop` and either lacks `when` or has `scatter`; otherwise it returns
normally. -/
theorem claim_C9 (steps : List Step) :
    (∃ msg, loop_checker steps = .error (.validationError msg)) ↔
      ∃ st ∈ steps, st.loop = true ∧ (st.when = false ∨ st.scatter = true) := by
  rw [← loop_checker_msgs_ne_nil_iff]
  unfold loop_checker
  by_cases h : loop_checker_msgs steps = []
  · simp [h]
  · simp only [h, List.isEmpty_iff, if_neg h]
    constructor
    · intro _; exact h
    · intro _; exact ⟨_, rfl⟩

/-- `get_step_id` (lines 502-508): if the fragment (the text between the
first and second `#`, Python `field_id.split("#")[1]`) contains a `/`,
drop the final `/`-segment of the whole id; otherwise keep the part before
the first `#`.  Ids are assumed to contain `#` (Python would raise
`IndexError` otherwise); an id without `#` is treated as having an empty
fragment. -/
def get_step_id (field_id : String) : String :=
  let cs := field_id.toList
  let frag := ((afterFirstChar? '#' cs).map (beforeFirstChar '#')).getD []
  if frag.contains '/' then String.mk (beforeLastChar '/' cs)
  else String.mk (beforeFirstChar '#' cs)

/-- Lookup in the insertion-ordered adjacency list. -/
def adjLookup (adj : List (String × List String)) (k : String) : Option (List String) :=
  adj.lookup k

/-- Python `adjacency[k] = v` for an existing key `k`. -/
def adjUpsert (adj : List (String × List String)) (k : String) (v : List String) :
    List (String × List String) :=
  match adj with
  | [] => [(k, v)]
  | (k', v') :: rest => if k' == k then (k, v) :: rest else (k', v') :: adjUpsert rest k v

/-- The inner loop over `vertices_in` (lines 473-477): insert the edge
`vin → vertex_out`, deduplicating out-lists. -/
def addEdges (adj : List (String × List String)) (vertices_in : List String)
    (vertex_out : String) : List (String × List String) :=
  match vertices_in with
  | [] => adj
  | vin :: rest =>
    let adj' := match adjLookup adj vin with
      | none => adj ++ [(vin, [vertex_out])]
      | some lst => if vertex_out ∈ lst then adj else adjUpsert adj vin (lst ++ [vertex_out])
    addEdges adj' rest vertex_out

/-- The body of `get_dependency_tree`'s loop (lines 466-479) for one step
input: derive the source step ids and the sink step id, add the edges, and
ensure the sink step id is a key. -/
def depTreeStep (adj : List (String × List String)) (step_input : Param) :
    List (String × List String) :=
  match step_input.source with
  | none => adj
  | some sv =>
    let vertices_in := match sv with
      | .many ss => ss.map get_step_id
      | .single s => [get_step_id s]
    let vertex_out := get_step_id step_input.id
    let adj' := addEdges adj vertices_in vertex_out
    if (adjLookup adj' vertex_out).isSome then adj' else adj' ++ [(vertex_out, [])]

/-- `get_dependency_tree` (lines 463-480). -/
def get_dependency_tree (step_inputs : List Param) : List (String × List String) :=
  step_inputs.foldl depTreeStep []

/-- `traversal_path[traversal_path.index(vertex):]` (lines 493-494). -/
def pathSuffixFrom (path : List String) (v : String) : List String :=
  path.dropWhile (fun x => !(x == v))

/-- The neighbor loop of `processDFS` (lines 490-497), parameterized by the
recursive call. -/
def dfsLoop (adj : List (String × List String)) (path : List String)
    (recurse : List String → List String → List (List String) →
      List String × List (List String)) :
    List String → List String → List (List String) →
    List String × List (List String)
  | [], processed, cycles => (processed, cycles)
  | v :: rest, processed, cycles =>
    if v ∈ path then
      dfsLoop adj path recurse rest processed (cycles ++ [pathSuffixFrom path v])
    else if v ∈ processed then
      dfsLoop adj path recurse rest processed cycles
    else
      let pc := recurse (path ++ [v]) processed cycles
      dfsLoop adj path recurse rest pc.1 pc.2

/-- `processDFS` (lines 483-499).  The fuel argument bounds the recursion
depth (in Python it is bounded by the vertex count); the bound used by
`circular_dependency_checker` is proved sufficient below, and on exhausted
fuel the state is returned unchanged.  `adjacency[tip]` is an unchecked
subscript in Python; within `circular_dependency_checker` every traversed
vertex is a key, modelled by an empty default. -/
def processDFS (adj : List (String × List String)) :
    Nat → List String → List String → List (List String) →
    List String × List (List String)
  | 0, _, processed, cycles => (processed, cycles)
  | fuel+1, path, processed, cycles =>
    let tip := path.getLastD ""
    let pc := dfsLoop adj path (fun pa pr cy => processDFS adj fuel pa pr cy)
      ((adjLookup adj tip).getD []) processed cycles
    (pc.1 ++ [tip], pc.2)

/-- Every vertex name mentioned by the adjacency: keys and neighbors. -/
def adjVerts (adj : List (String × List String)) : List String :=
  adj.map Prod.fst ++ adj.flatMap Prod.snd

/-- `str(cycle)` for the exception text. -/
def cycleStr (c : List String) : String :=
  "[" ++ joinStrings ", " (c.map (fun s => "'" ++ s ++ "'")) ++ "]"

/-- `circular_dependency_checker` (lines 442-460): DFS from every
unprocessed key, collect cycles, raise iff any. -/
def circular_dependency_checker (step_inputs : List Param) : Except CheckerError Unit :=
  let adjacency := get_dependency_tree step_inputs
  let fuel := (adjVerts adjacency).length + 1
  let vertices := adjacency.map Prod.fst
  let res := vertices.foldl (fun (st : List String × List (List String)) vertex =>
      if vertex ∈ st.1 then st
      else processDFS adjacency fuel [vertex] st.1 st.2) ([], [])
  if res.2.isEmpty then .ok ()
  else .error (.validationError ("The following steps have circular dependency:\n" ++
    joinStrings "\n" (res.2.map cycleStr)))

/-- One directed edge of the dependency graph: `b` occurs in the recorded
out-neighbor list of `a`. -/
def Edge (adj : List (String × List String)) (a b : String) : Prop :=
  b ∈ (adjLookup adj a).getD []

/-- The dependency graph contains a directed cycle: some vertex reaches
itself through at least one edge. -/
def HasCycle (adj : List (String × List String)) : Prop :=
  ∃ v, Relation.TransGen (Edge adj) v v

/-- `b` occurs strictly before `a` in the list `l`. -/
def Before (l : List String) (b a : String) : Prop :=
  ∃ l₁ l₂, l = l₁ ++ l₂ ∧ b ∈ l₁ ∧ a ∈ l₂

/-- Every neighbor of every finished vertex is finished earlier: the
finish order is a reverse topological order. -/
def OrderOK (adj : List (String × List String)) (processed : List String) : Prop :=
  ∀ a ∈ processed, ∀ b ∈ (adjLookup adj a).getD [], b ∈ processed ∧ Before processed b a

theorem Before.append_right {l : List String} {b a : String} (h : Before l b a)
    (Δ : List String) : Before (l ++ Δ) b a := by
  obtain ⟨l₁, l₂, rfl, hb, ha⟩ := h
  exact ⟨l₁, l₂ ++ Δ, by rw [List.append_assoc], hb, List.mem_append_left _ ha⟩

/-- The count of mentioned vertices still neither on the path nor
finished: the DFS recursion measure. -/
def remaining (adj : List (String × List String)) (path processed : List String) : Nat :=
  ((adjVerts adj).filter (fun v => decide (v ∉ path) && decide (v ∉ processed))).length

theorem filter_length_le_of_impl {α : Type} {p q : α → Bool} :
    ∀ l : List α, (∀ x ∈ l, p x = true → q x = true) →
      (l.filter p).length ≤ (l.filter q).length := by
  intro l
  induction l with
  | nil => intro _; exact le_rfl
  | cons x xs ih =>
    intro h
    have hxs := ih fun y hy => h y (List.mem_cons_of_mem _ hy)
    cases hp : p x with
    | true =>
      have hq := h x (List.mem_cons_self ..) hp
      simp [List.filter_cons, hp, hq]
      omega
    | false =>
      cases hq : q x with
      | true => simp [List.filter_cons, hp, hq]; omega
      | false => simp [List.filter_cons, hp, hq]; omega

theorem filter_length_lt_of_impl {α : Type} {p q : α → Bool} {x₀ : α} :
    ∀ l : List α, (∀ x ∈ l, p x = true → q x = true) → x₀ ∈ l →
      q x₀ = true → p x₀ = false →
      (l.filter p).length < (l.filter q).length := by
  intro l
  induction l with
  | nil => intro _ h; cases h
  | cons x xs ih =>
    intro h hx hq0 hp0
    rcases List.mem_cons.mp hx with rfl | hx'
    · have hle := filter_length_le_of_impl xs fun y hy => h y (List.mem_cons_of_mem _ hy)
      simp [List.filter_cons, hp0, hq0]
      omega
    · have hlt := ih (fun y hy => h y (List.mem_cons_of_mem _ hy)) hx' hq0 hp0
      cases hp : p x with
      | true =>
        have hq := h x (List.mem_cons_self ..) hp
        simp [List.filter_cons, hp, hq]
        omega
      | false =>
        cases hq : q x with
        | true => simp [List.filter_cons, hp, hq]; omega
        | false => simp [List.filter_cons, hp, hq]; omega

theorem remaining_le (adj : List (String × List String)) (path processed : List String) :
    remaining adj path processed ≤ (adjVerts adj).length :=
  List.length_filter_le _ _

theorem remaining_mono (adj : List (String × List String)) (path : List String)
    {processed processed' : List String}
    (h : ∀ x ∈ processed, x ∈ processed') :
    remaining adj path processed' ≤ remaining adj path processed := by
  apply filter_length_le_of_impl
  intro x _ hx
  simp only [Bool.and_eq_true, decide_eq_true_eq] at hx ⊢
  exact ⟨hx.1, fun hmem => hx.2 (h x hmem)⟩

theorem remaining_push (adj : List (String × List String)) {path processed : List String}
    {v : String} (hv : v ∈ adjVerts adj) (hvp : v ∉ path) (hvd : v ∉ processed) :
    remaining adj (path ++ [v]) processed < remaining adj path processed := by
  apply filter_length_lt_of_impl _ _ hv
  · simp only [Bool.and_eq_true, decide_eq_true_eq]
    exact ⟨hvp, hvd⟩
  · simp
  · intro x _ hx
    simp only [Bool.and_eq_true, decide_eq_true_eq, List.mem_append] at hx ⊢
    exact ⟨fun hmem => hx.1 (Or.inl hmem), hx.2⟩

theorem lookup_pair_mem {adj : List (String × List String)} {k : String} {v : List String}
    (h : List.lookup k adj = some v) : (k, v) ∈ adj := by
  induction adj with
  | nil => cases h
  | cons a rest ih =>
    obtain ⟨ak, av⟩ := a
    by_cases hk : (k == ak) = true
    · simp only [List.lookup, hk] at h
      cases h
      rw [eq_of_beq hk]
      exact List.mem_cons_self ..
    · simp only [Bool.not_eq_true] at hk
      simp only [List.lookup, hk] at h
      exact List.mem_cons_of_mem _ (ih h)

theorem edge_mem_adjVerts {adj : List (String × List String)} {a b : String}
    (h : Edge adj a b) : b ∈ adjVerts adj := by
  unfold Edge at h
  cases hl : adjLookup adj a with
  | none => rw [hl] at h; cases h
  | some l =>
    rw [hl] at h
    simp only [Option.getD_some] at h
    have := lookup_pair_mem hl
    unfold adjVerts
    refine List.mem_append_right _ ?_
    exact List.mem_flatMap.mpr ⟨(a, l), this, h⟩

theorem edge_key_mem {adj : List (String × List String)} {a b : String}
    (h : Edge adj a b) : a ∈ adj.map Prod.fst := by
  unfold Edge at h
  cases hl : adjLookup adj a with
  | none => rw [hl] at h; cases h
  | some l =>
    have := lookup_pair_mem hl
    exact List.mem_map.mpr ⟨(a, l), this, rfl⟩

theorem mem_getLastD : ∀ (l : List String), l ≠ [] → ∀ d, l.getLastD d ∈ l := by
  intro l
  induction l with
  | nil => intro h; cases h rfl
  | cons x xs ih =>
    intro _ d
    cases xs with
    | nil => simp [List.getLastD]
    | cons y ys =>
      rw [List.getLastD_cons]
      exact List.mem_cons_of_mem _ (ih (by simp) x)

theorem getLastD_append_cons :
    ∀ (l₁ : List String) (x : String) (l₂ : List String) (d : String),
      (l₁ ++ x :: l₂).getLastD d = (x :: l₂).getLastD d := by
  intro l₁
  induction l₁ with
  | nil => intro x l₂ d; rfl
  | cons a l₁' ih =>
    intro x l₂ d
    rw [List.cons_append, List.getLastD_cons, ih, List.getLastD_cons, List.getLastD_cons]

theorem getLast?_eq_getLastD {l : List String} (h : l ≠ []) :
    l.getLast? = some (l.getLastD "") := by
  induction l with
  | nil => cases h rfl
  | cons x xs ih =>
    cases xs with
    | nil => rfl
    | cons y ys =>
      have := ih (by simp)
      rw [List.getLast?_cons_cons, this]
      rw [show (x :: y :: ys).getLastD "" = (y :: ys).getLastD x from List.getLastD_cons ..,
        show (y :: ys).getLastD x = ys.getLastD y from List.getLastD_cons ..,
        show (y :: ys).getLastD "" = ys.getLastD y from List.getLastD_cons ..]

theorem chain'_reflTransGen_last {adj : List (String × List String)} :
    ∀ (l : List String) (x : String), List.Chain' (Edge adj) (x :: l) →
      Relation.ReflTransGen (Edge adj) x ((x :: l).getLastD "") := by
  intro l
  induction l with
  | nil => intro x _; exact Relation.ReflTransGen.refl
  | cons y ys ih =>
    intro x h
    have h1 : Edge adj x y := List.Chain'.rel_head h
    have h2 : List.Chain' (Edge adj) (y :: ys) := (List.chain'_cons.mp h).2
    have := ih y h2
    rw [List.getLastD_cons, List.getLastD_cons]
    have heq : (y :: ys).getLastD "" = ys.getLastD y := List.getLastD_cons ..
    rw [heq] at this
    exact Relation.ReflTransGen.head h1 this

theorem cycle_of_mem_path {adj : List (String × List String)} {path : List String}
    {v : String} (hchain : List.Chain' (Edge adj) path) (hv : v ∈ path)
    (hedge : Edge adj (path.getLastD "") v) : HasCycle adj := by
  obtain ⟨l₁, l₂, rfl⟩ := List.append_of_mem hv
  have hsuffix : List.Chain' (Edge adj) (v :: l₂) :=
    (List.chain'_append.mp hchain).2.1
  have htip : (l₁ ++ v :: l₂).getLastD "" = (v :: l₂).getLastD "" :=
    getLastD_append_cons l₁ v l₂ ""
  rw [htip] at hedge
  have hrtg := chain'_reflTransGen_last l₂ v hsuffix
  exact ⟨v, Relation.TransGen.tail' hrtg hedge⟩

/-- Postcondition of a full `processDFS` call: the finish list grows by a
block of new, distinct vertices ending with the path's tip, none
previously finished, and of which only the tip lies on the path; cycles
grow, and any growth witnesses a directed cycle; if no cycle was found,
every new finished vertex has all its out-neighbors finished earlier. -/
def DFSPost (adj : List (String × List String)) (path processed : List String)
    (cycles : List (List String)) (res : List String × List (List String)) : Prop :=
  (∃ Δ, res.1 = processed ++ Δ ∧ Δ.Nodup ∧ (∀ x ∈ Δ, x ∉ processed) ∧
    (∀ x ∈ Δ, x ∈ path → x = path.getLastD "") ∧ path.getLastD "" ∈ Δ) ∧
  (∃ C, res.2 = cycles ++ C ∧ (C ≠ [] → HasCycle adj)) ∧
  (res.2 = cycles → ∀ a ∈ res.1, a ∉ processed →
    ∀ b ∈ (adjLookup adj a).getD [], b ∈ res.1 ∧ Before res.1 b a)

/-- Postcondition of the neighbor loop: as `DFSPost` but the new block is
disjoint from the whole path, and (when no cycle was found) every examined
neighbor ends up finished. -/
def DFSLoopPost (adj : List (String × List String)) (path processed : List String)
    (cycles : List (List String)) (nbrs : List String)
    (res : List String × List (List String)) : Prop :=
  (∃ Δ, res.1 = processed ++ Δ ∧ Δ.Nodup ∧ (∀ x ∈ Δ, x ∉ processed) ∧
    (∀ x ∈ Δ, x ∉ path)) ∧
  (∃ C, res.2 = cycles ++ C ∧ (C ≠ [] → HasCycle adj)) ∧
  (res.2 = cycles → (∀ v ∈ nbrs, v ∈ res.1) ∧
    ∀ a ∈ res.1, a ∉ processed →
      ∀ b ∈ (adjLookup adj a).getD [], b ∈ res.1 ∧ Before res.1 b a)

theorem dfsLoop_post (adj : List (String × List String)) (fuel : Nat)
    (hrec : ∀ (pa pr : List String) (cy : List (List String)),
      pa ≠ [] → pa.Nodup → List.Chain' (Edge adj) pa → (∀ x ∈ pa, x ∉ pr) →
      remaining adj pa pr < fuel →
      DFSPost adj pa pr cy (processDFS adj fuel pa pr cy)) :
    ∀ (nbrs path processed : List String) (cycles : List (List String)),
      path ≠ [] → path.Nodup → List.Chain' (Edge adj) path →
      (∀ x ∈ path, x ∉ processed) →
      (∀ v ∈ nbrs, Edge adj (path.getLastD "") v) →
      remaining adj path processed < fuel + 1 →
      DFSLoopPost adj path processed cycles nbrs
        (dfsLoop adj path (fun pa pr cy => processDFS adj fuel pa pr cy)
          nbrs processed cycles) := by
  intro nbrs
  induction nbrs with
  | nil =>
    intro path processed cycles _ _ _ _ _ _
    simp only [dfsLoop]
    refine ⟨⟨[], by simp, List.nodup_nil, by simp, by simp⟩, ⟨[], by simp, by simp⟩, ?_⟩
    intro _
    exact ⟨by simp, fun a ha hna => absurd ha hna⟩
  | cons v rest ih =>
    intro path processed cycles h1 h2 h3 h4 h5 h6
    by_cases hvp : v ∈ path
    · simp only [dfsLoop, if_pos hvp]
      have hcyc : HasCycle adj := cycle_of_mem_path h3 hvp (h5 v (List.mem_cons_self ..))
      have hres := ih path processed (cycles ++ [pathSuffixFrom path v]) h1 h2 h3 h4
        (fun w hw => h5 w (List.mem_cons_of_mem _ hw)) h6
      obtain ⟨hΔ, ⟨C, hC, _⟩, _⟩ := hres
      refine ⟨hΔ, ⟨[pathSuffixFrom path v] ++ C, by rw [hC]; simp, fun _ => hcyc⟩, ?_⟩
      intro habs
      exfalso
      have := congrArg List.length habs
      rw [hC] at this
      simp only [List.length_append, List.length_cons, List.length_nil] at this
      omega
    · by_cases hvd : v ∈ processed
      · simp only [dfsLoop, if_neg hvp, if_pos hvd]
        have hres := ih path processed cycles h1 h2 h3 h4
          (fun w hw => h5 w (List.mem_cons_of_mem _ hw)) h6
        obtain ⟨hΔ, hC, hthird⟩ := hres
        refine ⟨hΔ, hC, ?_⟩
        intro hcy
        obtain ⟨hcov, hord⟩ := hthird hcy
        refine ⟨?_, hord⟩
        intro w hw
        rcases List.mem_cons.mp hw with rfl | hw'
        · obtain ⟨Δ, hΔeq, -, -, -⟩ := hΔ
          rw [hΔeq]
          exact List.mem_append_left _ hvd
        · exact hcov w hw'
      · simp only [dfsLoop, if_neg hvp, if_neg hvd]
        have hedge : Edge adj (path.getLastD "") v := h5 v (List.mem_cons_self ..)
        have hV : v ∈ adjVerts adj := edge_mem_adjVerts hedge
        have hpre2 : (path ++ [v]).Nodup := by
          rw [List.nodup_append]
          refine ⟨h2, List.nodup_singleton v, ?_⟩
          intro a ha hb
          simp only [List.mem_singleton] at hb
          subst hb
          exact hvp ha
        have hpre3 : List.Chain' (Edge adj) (path ++ [v]) := by
          apply List.Chain'.append h3 (List.chain'_singleton v)
          intro x hx y hy
          rw [getLast?_eq_getLastD h1] at hx
          simp only [Option.mem_def, Option.some.injEq] at hx
          simp only [List.head?_cons, Option.mem_def, Option.some.injEq] at hy
          subst hx
          subst hy
          exact hedge
        have hpre4 : ∀ x ∈ path ++ [v], x ∉ processed := by
          intro x hx
          rcases List.mem_append.mp hx with hx' | hx'
          · exact h4 x hx'
          · simp only [List.mem_singleton] at hx'
            subst hx'
            exact hvd
        have hpre5 : remaining adj (path ++ [v]) processed < fuel := by
          have := remaining_push adj hV hvp hvd
          omega
        have hpost := hrec (path ++ [v]) processed cycles (by simp) hpre2 hpre3 hpre4 hpre5
        obtain ⟨⟨Δ', hΔ'eq, hΔ'nd, hΔ'proc, hΔ'path, htipΔ⟩, ⟨C', hC'eq, hC'cyc⟩, hthird'⟩ :=
          hpost
        have htipv : (path ++ [v]).getLastD "" = v := by
          rw [getLastD_append_cons path v [] ""]
          rfl
        rw [htipv] at hΔ'path htipΔ
        have hvpc : v ∈ (processDFS adj fuel (path ++ [v]) processed cycles).1 := by
          rw [hΔ'eq]
          exact List.mem_append_right _ htipΔ
        have hdisj' : ∀ x ∈ path,
            x ∉ (processDFS adj fuel (path ++ [v]) processed cycles).1 := by
          intro x hx
          rw [hΔ'eq]
          intro hmem
          rcases List.mem_append.mp hmem with hm | hm
          · exact h4 x hx hm
          · have := hΔ'path x hm (List.mem_append_left _ hx)
            subst this
            exact hvp hx
        have hsub : ∀ x ∈ processed,
            x ∈ (processDFS adj fuel (path ++ [v]) processed cycles).1 := by
          rw [hΔ'eq]
          intro x hx
          exact List.mem_append_left _ hx
        have hres := ih path (processDFS adj fuel (path ++ [v]) processed cycles).1
          (processDFS adj fuel (path ++ [v]) processed cycles).2 h1 h2 h3 hdisj'
          (fun w hw => h5 w (List.mem_cons_of_mem _ hw))
          (by
            have := remaining_mono adj path hsub
            omega)
        obtain ⟨⟨Δ₂, hΔ₂eq, hΔ₂nd, hΔ₂proc, hΔ₂path⟩, ⟨C₂, hC₂eq, hC₂cyc⟩, hthird₂⟩ := hres
        refine ⟨⟨Δ' ++ Δ₂, ?_, ?_, ?_, ?_⟩, ⟨C' ++ C₂, ?_, ?_⟩, ?_⟩
        · rw [hΔ₂eq, hΔ'eq, List.append_assoc]
        · rw [List.nodup_append]
          refine ⟨hΔ'nd, hΔ₂nd, ?_⟩
          intro x hx hx₂
          exact hΔ₂proc x hx₂ (by rw [hΔ'eq]; exact List.mem_append_right _ hx)
        · intro x hx
          rcases List.mem_append.mp hx with hm | hm
          · exact hΔ'proc x hm
          · intro hmem
            exact hΔ₂proc x hm (by rw [hΔ'eq]; exact List.mem_append_left _ hmem)
        · intro x hx
          rcases List.mem_append.mp hx with hm | hm
          · intro hxp
            have := hΔ'path x hm (List.mem_append_left _ hxp)
            subst this
            exact hvp hxp
          · exact hΔ₂path x hm
        · rw [hC₂eq, hC'eq, List.append_assoc]
        · intro hne
          by_cases hC' : C' = []
          · subst hC'
            simp only [List.nil_append] at hne
            exact hC₂cyc hne
          · exact hC'cyc hC'
        · intro hcy
          have hlen := congrArg List.length hcy
          rw [hC₂eq, hC'eq] at hlen
          simp only [List.length_append] at hlen
          have hC'nil : C' = [] := List.length_eq_zero.mp (by omega)
          have hC₂nil : C₂ = [] := List.length_eq_zero.mp (by omega)
          have hpc2 : (processDFS adj fuel (path ++ [v]) processed cycles).2 = cycles := by
            rw [hC'eq, hC'nil, List.append_nil]
          have hres2 : (dfsLoop adj path (fun pa pr cy => processDFS adj fuel pa pr cy) rest
              (processDFS adj fuel (path ++ [v]) processed cycles).1
              (processDFS adj fuel (path ++ [v]) processed cycles).2).2 =
              (processDFS adj fuel (path ++ [v]) processed cycles).2 := by
            rw [hC₂eq, hC₂nil, List.append_nil]
          obtain ⟨hcov₂, hord₂⟩ := hthird₂ hres2
          have hord₁ := hthird' hpc2
          constructor
          · intro w hw
            rcases List.mem_cons.mp hw with rfl | hw'
            · rw [hΔ₂eq]
              exact List.mem_append_left _ hvpc
            · exact hcov₂ w hw'
          · intro a ha hna b hb
            rw [hΔ₂eq] at ha
            rcases List.mem_append.mp ha with hm | hm
            · obtain ⟨hbmem, hbbefore⟩ := hord₁ a hm hna b hb
              constructor
              · rw [hΔ₂eq]
                exact List.mem_append_left _ hbmem
              · rw [hΔ₂eq]
                exact hbbefore.append_right Δ₂
            · have hnapc : a ∉ (processDFS adj fuel (path ++ [v]) processed cycles).1 :=
                hΔ₂proc a hm
              exact hord₂ a (by rw [hΔ₂eq]; exact List.mem_append_right _ hm) hnapc b hb

theorem processDFS_post (adj : List (String × List String)) :
    ∀ (fuel : Nat) (path processed : List String) (cycles : List (List String)),
      path ≠ [] → path.Nodup → List.Chain' (Edge adj) path →
      (∀ x ∈ path, x ∉ processed) →
      remaining adj path processed < fuel →
      DFSPost adj path processed cycles (processDFS adj fuel path processed cycles) := by
  intro fuel
  induction fuel with
  | zero => intro path processed cycles _ _ _ _ h5; omega
  | succ f ihf =>
    intro path processed cycles h1 h2 h3 h4 h5
    have hloop := dfsLoop_post adj f
      (fun pa pr cy p1 p2 p3 p4 p5 => ihf pa pr cy p1 p2 p3 p4 p5)
      ((adjLookup adj (path.getLastD "")).getD []) path processed cycles
      h1 h2 h3 h4 (fun v hv => hv) h5
    obtain ⟨⟨Δ, hΔeq, hΔnd, hΔproc, hΔpath⟩, ⟨C, hCeq, hCcyc⟩, hthird⟩ := hloop
    have htipmem : path.getLastD "" ∈ path := mem_getLastD path h1 ""
    have htipnotpc : path.getLastD "" ∉
        (dfsLoop adj path (fun pa pr cy => processDFS adj f pa pr cy)
          ((adjLookup adj (path.getLastD "")).getD []) processed cycles).1 := by
      rw [hΔeq]
      intro hmem
      rcases List.mem_append.mp hmem with hm | hm
      · exact h4 _ htipmem hm
      · exact hΔpath _ hm htipmem
    simp only [processDFS]
    refine ⟨⟨Δ ++ [path.getLastD ""], ?_, ?_, ?_, ?_, ?_⟩, ⟨C, hCeq, hCcyc⟩, ?_⟩
    · rw [hΔeq, List.append_assoc]
    · rw [List.nodup_append]
      refine ⟨hΔnd, List.nodup_singleton _, ?_⟩
      intro x hx hb
      simp only [List.mem_singleton] at hb
      subst hb
      exact hΔpath _ hx htipmem
    · intro x hx
      rcases List.mem_append.mp hx with hm | hm
      · exact hΔproc x hm
      · simp only [List.mem_singleton] at hm
        subst hm
        exact h4 _ htipmem
    · intro x hx hxp
      rcases List.mem_append.mp hx with hm | hm
      · exact absurd hxp (hΔpath x hm)
      · simp only [List.mem_singleton] at hm
        exact hm
    · exact List.mem_append_right _ (List.mem_singleton.mpr rfl)
    · intro hcy
      obtain ⟨hcov, hord⟩ := hthird hcy
      intro a ha hna b hb
      rcases List.mem_append.mp ha with hm | hm
      · obtain ⟨hbmem, hbbefore⟩ := hord a hm hna b hb
        exact ⟨List.mem_append_left _ hbmem, hbbefore.append_right _⟩
      · simp only [List.mem_singleton] at hm
        subst hm
        have hbpc : b ∈ (dfsLoop adj path (fun pa pr cy => processDFS adj f pa pr cy)
            ((adjLookup adj (path.getLastD "")).getD []) processed cycles).1 :=
          hcov b hb
        refine ⟨List.mem_append_left _ hbpc, ?_⟩
        exact ⟨_, [path.getLastD ""], rfl, hbpc, List.mem_singleton.mpr rfl⟩

theorem before_indexOf {L : List String} {b a : String} (h : Before L b a)
    (hnd : L.Nodup) : L.indexOf b < L.indexOf a := by
  obtain ⟨l₁, l₂, rfl, hb, ha⟩ := h
  have hanot : a ∉ l₁ := by
    rw [List.nodup_append] at hnd
    exact fun hmem => hnd.2.2 hmem ha
  rw [List.indexOf_append_of_mem hb, List.indexOf_append_of_not_mem hanot]
  have h1 : List.indexOf b l₁ < l₁.length := List.indexOf_lt_length.mpr hb
  omega

theorem no_cycle_of_orderOK (adj : List (String × List String)) {L : List String}
    (hnd : L.Nodup) (hord : OrderOK adj L)
    (hkeys : ∀ k ∈ adj.map Prod.fst, k ∈ L) : ¬ HasCycle adj := by
  rintro ⟨v, hv⟩
  have step : ∀ a b, Edge adj a b → L.indexOf b < L.indexOf a := by
    intro a b h
    have haL : a ∈ L := hkeys a (edge_key_mem h)
    obtain ⟨hbL, hbef⟩ := hord a haL b h
    exact before_indexOf hbef hnd
  have main : ∀ a b, Relation.TransGen (Edge adj) a b → L.indexOf b < L.indexOf a := by
    intro a b h
    induction h with
    | single h' => exact step _ _ h'
    | tail hab hbc ih =>
      have := step _ _ hbc
      omega
  exact absurd (main v v hv) (lt_irrefl _)

theorem topLoop_post (adj : List (String × List String)) (fuel : Nat)
    (hfuel : (adjVerts adj).length < fuel) :
    ∀ (verts processed : List String) (cycles : List (List String)),
      processed.Nodup →
      (cycles = [] → OrderOK adj processed) →
      (cycles ≠ [] → HasCycle adj) →
      (verts.foldl (fun st vertex => if vertex ∈ st.1 then st
        else processDFS adj fuel [vertex] st.1 st.2) (processed, cycles)).1.Nodup ∧
      (∀ x ∈ processed, x ∈ (verts.foldl (fun st vertex => if vertex ∈ st.1 then st
        else processDFS adj fuel [vertex] st.1 st.2) (processed, cycles)).1) ∧
      ((verts.foldl (fun st vertex => if vertex ∈ st.1 then st
        else processDFS adj fuel [vertex] st.1 st.2) (processed, cycles)).2 = [] →
        OrderOK adj (verts.foldl (fun st vertex => if vertex ∈ st.1 then st
          else processDFS adj fuel [vertex] st.1 st.2) (processed, cycles)).1 ∧
        ∀ v ∈ verts, v ∈ (verts.foldl (fun st vertex => if vertex ∈ st.1 then st
          else processDFS adj fuel [vertex] st.1 st.2) (processed, cycles)).1) ∧
      ((verts.foldl (fun st vertex => if vertex ∈ st.1 then st
        else processDFS adj fuel [vertex] st.1 st.2) (processed, cycles)).2 ≠ [] →
        HasCycle adj) := by
  intro verts
  induction verts with
  | nil =>
    intro processed cycles hnd hord hcyc
    refine ⟨hnd, fun x hx => hx, ?_, hcyc⟩
    intro hc
    exact ⟨hord hc, by simp⟩
  | cons v verts' ih =>
    intro processed cycles hnd hord hcyc
    simp only [List.foldl_cons]
    by_cases hv : v ∈ processed
    · simp only [if_pos hv]
      obtain ⟨i1, i2, i3, i4⟩ := ih processed cycles hnd hord hcyc
      refine ⟨i1, i2, ?_, i4⟩
      intro hc
      obtain ⟨o1, o2⟩ := i3 hc
      refine ⟨o1, ?_⟩
      intro w hw
      rcases List.mem_cons.mp hw with rfl | hw'
      · exact i2 w hv
      · exact o2 w hw'
    · simp only [if_neg hv]
      have hpost := processDFS_post adj fuel [v] processed cycles (by simp)
        (List.nodup_singleton v) (List.chain'_singleton v)
        (by intro x hx; simp only [List.mem_singleton] at hx; subst hx; exact hv)
        (by have := remaining_le adj [v] processed; omega)
      obtain ⟨⟨Δ, hΔeq, hΔnd, hΔproc, _, htipΔ⟩, ⟨C, hCeq, hCcyc⟩, hthird⟩ := hpost
      have htipv : ([v] : List String).getLastD "" = v := rfl
      rw [htipv] at htipΔ
      have hnd' : (processDFS adj fuel [v] processed cycles).1.Nodup := by
        rw [hΔeq, List.nodup_append]
        refine ⟨hnd, hΔnd, ?_⟩
        intro x hx hx'
        exact hΔproc x hx' hx
      have hord' : (processDFS adj fuel [v] processed cycles).2 = [] →
          OrderOK adj (processDFS adj fuel [v] processed cycles).1 := by
        intro hc
        rw [hCeq] at hc
        have hcyc0 : cycles = [] := by
          cases hy : cycles with
          | nil => rfl
          | cons c cs => rw [hy] at hc; simp at hc
        have hC0 : C = [] := by
          rw [hcyc0] at hc
          simpa using hc
        have hres2 : (processDFS adj fuel [v] processed cycles).2 = cycles := by
          rw [hCeq, hC0, List.append_nil]
        have hordp := hord hcyc0
        have ht := hthird hres2
        intro a ha b hb
        rw [hΔeq] at ha
        rcases List.mem_append.mp ha with hm | hm
        · obtain ⟨h1', h2'⟩ := hordp a hm b hb
          rw [hΔeq]
          exact ⟨List.mem_append_left _ h1', h2'.append_right _⟩
        · exact ht a (by rw [hΔeq]; exact List.mem_append_right _ hm) (hΔproc a hm) b hb
      have hcyc' : (processDFS adj fuel [v] processed cycles).2 ≠ [] → HasCycle adj := by
        intro hc
        rw [hCeq] at hc
        by_cases hy : cycles = []
        · subst hy
          simp only [List.nil_append] at hc
          exact hCcyc hc
        · exact hcyc hy
      obtain ⟨i1, i2, i3, i4⟩ := ih (processDFS adj fuel [v] processed cycles).1
        (processDFS adj fuel [v] processed cycles).2 hnd' hord' hcyc'
      refine ⟨i1, ?_, ?_, i4⟩
      · intro x hx
        exact i2 x (by rw [hΔeq]; exact List.mem_append_left _ hx)
      · intro hc
        obtain ⟨o1, o2⟩ := i3 hc
        refine ⟨o1, ?_⟩
        intro w hw
        rcases List.mem_cons.mp hw with rfl | hw'
        · exact i2 w (by rw [hΔeq]; exact List.mem_append_right _ htipΔ)
        · exact o2 w hw'

/-- `circular_dependency_checker` raises a validation failure iff the
adjacency it computes (`get_dependency_tree`) contains a directed cycle.
Soundness: every cycle recorded by the DFS closes a chain of recorded
edges.  Completeness: if no cycle is recorded, the finish order of the
DFS is a reverse topological order of all recorded vertices, which a
directed cycle cannot admit. -/
theorem circular_checker_iff_hasCycle (step_inputs : List Param) :
    (∃ msg, circular_dependency_checker step_inputs = .error (.validationError msg)) ↔
      HasCycle (get_dependency_tree step_inputs) := by
  obtain ⟨hnd, -, hthird, hfourth⟩ := topLoop_post (get_dependency_tree step_inputs)
    ((adjVerts (get_dependency_tree step_inputs)).length + 1) (Nat.lt_succ_self _)
    ((get_dependency_tree step_inputs).map Prod.fst) [] [] List.nodup_nil
    (fun _ a ha => absurd ha (List.not_mem_nil a))
    (fun h => absurd rfl h)
  unfold circular_dependency_checker
  dsimp only
  by_cases hE : (((get_dependency_tree step_inputs).map Prod.fst).foldl
      (fun st vertex => if vertex ∈ st.1 then st
        else processDFS (get_dependency_tree step_inputs)
          ((adjVerts (get_dependency_tree step_inputs)).length + 1) [vertex] st.1 st.2)
      ([], [])).2.isEmpty = true
  · have hnil := List.isEmpty_iff.mp hE
    obtain ⟨hOrd, hCov⟩ := hthird hnil
    have hnc := no_cycle_of_orderOK (get_dependency_tree step_inputs) hnd hOrd hCov
    rw [if_pos hE]
    constructor
    · rintro ⟨msg, hmsg⟩
      simp at hmsg
    · intro h
      exact absurd h hnc
  · rw [if_neg hE]
    constructor
    · intro _
      exact hfourth (fun h2 => hE (by rw [h2]; rfl))
    · intro _
      exact ⟨_, rfl⟩

/-- The step ids derived from a source field, as §4.F of the spec
describes the edge derivation. -/
def sourceStepIds : SourceVal → List String
  | .single s => [get_step_id s]
  | .many ss => ss.map get_step_id

/-- The dependency edges as the spec states them: for every step input
carrying a `source`, one edge from each source's step id to the step id of
the input. -/
def SpecEdge (step_inputs : List Param) (a b : String) : Prop :=
  ∃ p ∈ step_inputs, ∃ sv, p.source = some sv ∧
    a ∈ sourceStepIds sv ∧ b = get_step_id p.id

/-- The spec-level dependency multigraph contains a directed cycle. -/
def SpecHasCycle (step_inputs : List Param) : Prop :=
  ∃ v, Relation.TransGen (SpecEdge step_inputs) v v

theorem lookup_append_pairs (l₁ l₂ : List (String × List String)) (k : String) :
    (l₁ ++ l₂).lookup k =
      match l₁.lookup k with
      | some v => some v
      | none => l₂.lookup k := by
  induction l₁ with
  | nil => simp [List.lookup]
  | cons a rest ih =>
    obtain ⟨ak, av⟩ := a
    by_cases hk : (k == ak) = true
    · simp [List.lookup, hk]
    · simp only [Bool.not_eq_true] at hk
      simp [List.lookup, hk, ih]

theorem lookup_adjUpsert (d : List (String × List String)) (k : String)
    (v : List String) (k' : String) :
    (adjUpsert d k v).lookup k' = if k' == k then some v else d.lookup k' := by
  induction d with
  | nil =>
    cases h : (k' == k) with
    | true => simp [adjUpsert, List.lookup, h]
    | false => simp [adjUpsert, List.lookup, h]
  | cons a rest ih =>
    obtain ⟨ak, av⟩ := a
    by_cases hak : (ak == k) = true
    · have hak' : ak = k := eq_of_beq hak
      subst hak'
      simp only [adjUpsert, hak, if_pos rfl]
      by_cases hk' : (k' == ak) = true
      · have : k' = ak := eq_of_beq hk'
        subst this
        simp [List.lookup]
      · simp only [Bool.not_eq_true] at hk'
        simp [List.lookup, hk']
    · simp only [Bool.not_eq_true] at hak
      simp only [adjUpsert, hak]
      by_cases hk' : (k' == ak) = true
      · have : k' = ak := eq_of_beq hk'
        subst this
        have hne : (k' == k) = false := by
          cases h2 : (k' == k) with
          | false => rfl
          | true => rw [eq_of_beq h2] at hak; simp at hak
        simp [List.lookup, hne, hk']
      · simp only [Bool.not_eq_true] at hk'
        simp [List.lookup, hk', ih]

/-- Appending a fresh key with an empty out-list adds no edges. -/
theorem edge_append_empty (adj : List (String × List String)) (k : String)
    (x y : String) : Edge (adj ++ [(k, [])]) x y ↔ Edge adj x y := by
  unfold Edge adjLookup
  rw [lookup_append_pairs]
  cases h : List.lookup x adj with
  | some l => simp
  | none =>
    simp only
    by_cases hk : (x == k) = true
    · simp [List.lookup, hk]
    · simp only [Bool.not_eq_true] at hk
      simp [List.lookup, hk]

/-- The lookup table after one iteration of the `vertices_in` loop. -/
theorem lookup_edge_step (adj : List (String × List String)) (vin vout : String)
    (x : String) :
    List.lookup x (match adjLookup adj vin with
      | none => adj ++ [(vin, [vout])]
      | some lst => if vout ∈ lst then adj else adjUpsert adj vin (lst ++ [vout])) =
      if x = vin then
        some (match adjLookup adj vin with
              | none => [vout]
              | some lst => if vout ∈ lst then lst else lst ++ [vout])
      else List.lookup x adj := by
  unfold adjLookup
  cases houter : List.lookup vin adj with
  | none =>
    simp only
    rw [lookup_append_pairs]
    by_cases hx : x = vin
    · subst hx
      rw [houter]
      simp [List.lookup]
    · rw [if_neg hx]
      have hxb : (x == vin) = false := by
        cases h2 : (x == vin) with
        | false => rfl
        | true => exact absurd (eq_of_beq h2) hx
      cases h2 : List.lookup x adj with
      | some v => simp [h2]
      | none => simp [h2, List.lookup, hxb]
  | some lst =>
    by_cases hv : vout ∈ lst
    · simp only [if_pos hv]
      by_cases hx : x = vin
      · subst hx
        rw [if_pos rfl, houter]
      · rw [if_neg hx]
    · simp only [if_neg hv]
      rw [lookup_adjUpsert]
      by_cases hx : x = vin
      · subst hx
        rw [if_pos rfl, if_pos (by simp)]
      · rw [if_neg hx, if_neg (by
          cases h2 : (x == vin) with
          | false => simp
          | true => exact absurd (eq_of_beq h2) hx)]

/-- One iteration of the `vertices_in` loop records exactly the edge
`vin → vout` on top of the existing ones. -/
theorem edge_addEdge_step (adj : List (String × List String)) (vin vout : String)
    (x y : String) :
    Edge (match adjLookup adj vin with
      | none => adj ++ [(vin, [vout])]
      | some lst => if vout ∈ lst then adj else adjUpsert adj vin (lst ++ [vout]))
      x y ↔ Edge adj x y ∨ (x = vin ∧ y = vout) := by
  unfold Edge
  rw [show adjLookup (match adjLookup adj vin with
      | none => adj ++ [(vin, [vout])]
      | some lst => if vout ∈ lst then adj else adjUpsert adj vin (lst ++ [vout])) x =
    List.lookup x (match adjLookup adj vin with
      | none => adj ++ [(vin, [vout])]
      | some lst => if vout ∈ lst then adj else adjUpsert adj vin (lst ++ [vout]))
    from rfl]
  rw [lookup_edge_step]
  by_cases hx : x = vin
  · subst hx
    rw [if_pos rfl]
    unfold adjLookup
    cases houter : List.lookup x adj with
    | none =>
      simp only [Option.getD_some, Option.getD_none]
      constructor
      · intro h
        simp only [List.mem_singleton] at h
        exact Or.inr (by simp [h])
      · intro h
        rcases h with h | ⟨-, rfl⟩
        · simp at h
        · simp
    | some lst =>
      by_cases hv : vout ∈ lst
      · simp only [if_pos hv, Option.getD_some]
        constructor
        · intro h; exact Or.inl h
        · intro h
          rcases h with h | ⟨-, rfl⟩
          · exact h
          · exact hv
      · simp only [if_neg hv, Option.getD_some, List.mem_append, List.mem_singleton]
        constructor
        · intro h
          rcases h with h | h
          · exact Or.inl h
          · exact Or.inr (by simp [h])
        · intro h
          rcases h with h | ⟨-, rfl⟩
          · exact Or.inl h
          · exact Or.inr rfl
  · rw [if_neg hx]
    constructor
    · intro h; exact Or.inl h
    · intro h
      rcases h with h | ⟨h', -⟩
      · exact h
      · exact absurd h' hx

/-- The inner loop over `vertices_in` records exactly the edges
`vin → vertex_out` for the listed input vertices, on top of the existing
ones. -/
theorem edge_addEdges (vins : List String) :
    ∀ (adj : List (String × List String)) (vout x y : String),
    Edge (addEdges adj vins vout) x y ↔ Edge adj x y ∨ (x ∈ vins ∧ y = vout) := by
  induction vins with
  | nil =>
    intro adj vout x y
    simp [addEdges]
  | cons vin rest ih =>
    intro adj vout x y
    rw [show addEdges adj (vin :: rest) vout =
        addEdges (match adjLookup adj vin with
          | none => adj ++ [(vin, [vout])]
          | some lst => if vout ∈ lst then adj else adjUpsert adj vin (lst ++ [vout]))
          rest vout from rfl]
    rw [ih, edge_addEdge_step]
    constructor
    · rintro ((h | ⟨rfl, rfl⟩) | ⟨hm, rfl⟩)
      · exact Or.inl h
      · exact Or.inr ⟨List.mem_cons_self _ _, rfl⟩
      · exact Or.inr ⟨List.mem_cons_of_mem _ hm, rfl⟩
    · rintro (h | ⟨hm, rfl⟩)
      · exact Or.inl (Or.inl h)
      · rcases List.mem_cons.mp hm with rfl | hm'
        · exact Or.inl (Or.inr ⟨rfl, rfl⟩)
        · exact Or.inr ⟨hm', rfl⟩

/-- The `vertices_in` computed by `get_dependency_tree` are the source
step ids. -/
theorem sourceStepIds_match (sv : SourceVal) :
    (match sv with
      | SourceVal.many ss => ss.map get_step_id
      | SourceVal.single s => [get_step_id s]) = sourceStepIds sv := by
  cases sv <;> rfl

/-- One iteration of `get_dependency_tree`'s loop records exactly the
spec-level edges contributed by that step input. -/
theorem edge_depTreeStep (adj : List (String × List String)) (p : Param)
    (x y : String) :
    Edge (depTreeStep adj p) x y ↔ Edge adj x y ∨
      (∃ sv, p.source = some sv ∧ x ∈ sourceStepIds sv ∧ y = get_step_id p.id) := by
  unfold depTreeStep
  cases hs : p.source with
  | none =>
    simp
  | some sv =>
    dsimp only
    rw [sourceStepIds_match]
    by_cases hk :
        (adjLookup (addEdges adj (sourceStepIds sv) (get_step_id p.id))
          (get_step_id p.id)).isSome = true
    · rw [if_pos hk, edge_addEdges]
      simp
    · rw [if_neg hk, edge_append_empty, edge_addEdges]
      simp

/-- Folding `depTreeStep` over a list of step inputs records exactly the
spec-level edges of that list, on top of the existing ones. -/
theorem edge_foldl_depTree (sis : List Param) :
    ∀ (adj : List (String × List String)) (x y : String),
    Edge (sis.foldl depTreeStep adj) x y ↔ Edge adj x y ∨ SpecEdge sis x y := by
  induction sis with
  | nil =>
    intro adj x y
    simp [SpecEdge]
  | cons p rest ih =>
    intro adj x y
    rw [List.foldl_cons, ih, edge_depTreeStep]
    unfold SpecEdge
    constructor
    · rintro ((h | ⟨sv, hsv, hx, hy⟩) | ⟨q, hq, sv, hsv, hx, hy⟩)
      · exact Or.inl h
      · exact Or.inr ⟨p, List.mem_cons_self _ _, sv, hsv, hx, hy⟩
      · exact Or.inr ⟨q, List.mem_cons_of_mem _ hq, sv, hsv, hx, hy⟩
    · rintro (h | ⟨q, hq, sv, hsv, hx, hy⟩)
      · exact Or.inl (Or.inl h)
      · rcases List.mem_cons.mp hq with rfl | hq'
        · exact Or.inl (Or.inr ⟨sv, hsv, hx, hy⟩)
        · exact Or.inr ⟨q, hq', sv, hsv, hx, hy⟩

/-- The adjacency computed by `get_dependency_tree` holds exactly the
spec-level edges: source step id to sink step id, one per source reference
of a step input. -/
theorem edge_get_dependency_tree (step_inputs : List Param) (x y : String) :
    Edge (get_dependency_tree step_inputs) x y ↔ SpecEdge step_inputs x y := by
  unfold get_dependency_tree
  rw [edge_foldl_depTree]
  constructor
  · rintro (h | h)
    · simp [Edge, adjLookup, List.lookup] at h
    · exact h
  · exact Or.inr

/-- The computed adjacency has a cycle iff the spec-level dependency
multigraph has one. -/
theorem hasCycle_iff_specHasCycle (step_inputs : List Param) :
    HasCycle (get_dependency_tree step_inputs) ↔ SpecHasCycle step_inputs := by
  constructor
  · rintro ⟨v, hv⟩
    exact ⟨v, hv.mono (fun a b h => (edge_get_dependency_tree step_inputs a b).mp h)⟩
  · rintro ⟨v, hv⟩
    exact ⟨v, hv.mono (fun a b h => (edge_get_dependency_tree step_inputs a b).mpr h)⟩

/-- Claim C8: `circular_dependency_checker` raises a validation failure if
and only if the step dependency multigraph derived from the step inputs'
source fields — an edge from each referenced source's step id to the step
id of the referencing input — contains a directed cycle; on an acyclic
graph it returns normally with no cycles reported. -/
theorem claim_C8 (step_inputs : List Param) :
    (∃ msg, circular_dependency_checker step_inputs = .error (.validationError msg)) ↔
      SpecHasCycle step_inputs :=
  (circular_checker_iff_hasCycle step_inputs).trans (hasCycle_iff_specHasCycle step_inputs)
